import Mathlib

/-!
FP16 multiply reference (References/fp16_multiply_ref.c).

A shallow embedding of the half-precision codec (`fp16_to_double`,
`double_to_fp16`) and of the multiplier (`fp16_multiply_debug`).

Modelling of the C types:

* `fp16_t` is the 16-bit union; the bit-fields are read with the layout the
  test vectors of `main` rely on (`frac` in bits 0..9, `exp` in bits 10..14,
  `sign` in bit 15).
* `double` is modelled in sign/magnitude form with an exact rational
  magnitude, plus the two infinities and NaN.  Every intermediate value the
  multiplier computes is a dyadic rational with at most 22 significant bits
  and a binary exponent between -48 and 32 (see `product_dyadic`), so binary64
  arithmetic on these operands is exact and coincides with the rational
  arithmetic used here.  `pow(2, n)` is taken to be exact, and `log2` to
  return the binary64 value nearest to the exact logarithm, so that
  `floor(log2(x))` is one above the exact floor for an `x` just below a power
  of two (see `double.floor_log2_pos`).
* A property of the encoder on an arbitrary finite wide value is stated for
  a sign `s` and a rational magnitude `m`, the value being `double.finite s m`.
* A conversion of a `double` to `uint16_t` whose truncated value is not in
  `0..65535` is undefined behaviour in C; it is modelled by `none`, so the
  encoder and the multiplier return an `Option`.
* The `printf` calls do not influence the result and are left out.
-/

/-- The C type `double`: a finite value in sign/magnitude form (`mag` is
non-negative in every value built by the operations below), a signed
infinity, or NaN. -/
inductive double where
  | finite (neg : Bool) (mag : ℚ)
  | inf (neg : Bool)
  | nan
deriving DecidableEq

namespace double

/-- The signed rational of a sign/magnitude pair. -/
def signed (s : Bool) (m : ℚ) : ℚ := if s then -m else m

/-- The rational value of a finite `double` (`0` for infinities and NaN). -/
def toRat : double → ℚ
  | finite s m => signed s m
  | _ => 0

/-- The literal `0.0`. -/
def zero : double := finite false 0

/-- The literal `-0.0`. -/
def negzero : double := finite true 0

/-- The literal `1.0`. -/
def one : double := finite false 1

/-- The literal `-1.0`. -/
def negone : double := finite true 1

/-- Conversion of a non-negative C integer to `double`. -/
def ofNat (n : Nat) : double := finite false (n : ℚ)

/-- The macro `INFINITY`, and `-INFINITY`. -/
def infinity (s : Bool) : double := inf s

/-- Unary minus. -/
def neg : double → double
  | finite s m => finite (!s) m
  | inf s => inf (!s)
  | nan => nan

/-- The product `x * y`. -/
def mul : double → double → double
  | nan, _ => nan
  | _, nan => nan
  | inf s, inf t => inf (xor s t)
  | inf s, finite t n => if n = 0 then nan else inf (xor s t)
  | finite s m, inf t => if m = 0 then nan else inf (xor s t)
  | finite s m, finite t n => finite (xor s t) (m * n)

/-- The quotient `x / y`. -/
def div : double → double → double
  | nan, _ => nan
  | _, nan => nan
  | inf _, inf _ => nan
  | inf s, finite t _ => inf (xor s t)
  | finite s _, inf t => finite (xor s t) 0
  | finite s m, finite t n =>
    if n = 0 then (if m = 0 then nan else inf (xor s t)) else finite (xor s t) (m / n)

/-- The sum `x + y`. -/
def add : double → double → double
  | nan, _ => nan
  | _, nan => nan
  | inf s, inf t => if s = t then inf s else nan
  | inf s, finite _ _ => inf s
  | finite _ _, inf t => inf t
  | finite s m, finite t n =>
    let r := signed s m + signed t n
    if r = 0 then finite (s && t) 0 else finite (decide (r < 0)) |r|

/-- The difference `x - y`. -/
def sub (x y : double) : double := add x (neg y)

instance : Mul double := ⟨mul⟩
instance : Div double := ⟨div⟩
instance : Add double := ⟨add⟩
instance : Sub double := ⟨sub⟩

/-- The comparison `x == y` (the two zeros compare equal, NaN compares
unequal to everything). -/
def eq : double → double → Bool
  | finite s m, finite t n => decide (signed s m = signed t n)
  | inf s, inf t => decide (s = t)
  | _, _ => false

/-- The comparison `x < y`. -/
def lt : double → double → Bool
  | finite s m, finite t n => decide (signed s m < signed t n)
  | finite _ _, inf t => !t
  | inf s, finite _ _ => s
  | inf s, inf t => s && !t
  | _, _ => false

/-- The classification `isinf`. -/
def isinf : double → Bool
  | inf _ => true
  | _ => false

/-- The classification `isnan`. -/
def isnan : double → Bool
  | nan => true
  | _ => false

/-- The function `fabs`. -/
def fabs : double → double
  | finite _ m => finite false m
  | inf _ => inf false
  | nan => nan

/-- The call `pow(2, n)` for an integer `n`. -/
def pow2 (n : Int) : double := finite false ((2 : ℚ) ^ n)

/-- For an integer `t`, the exponent `n` with `2 / 2^n` the distance from `t`
to the binary64 value just below it: `2^(j-53)` below a positive power of two
`2^j`, `2^(j-52)` below any other `t` with `2^j ≤ |t| < 2^(j+1)`, and `2^-1074`
below zero. -/
def log2_round_exp (t : Int) : Nat :=
  if t = 0 then 1075
  else if 0 < t ∧ t.natAbs = 2 ^ Nat.log 2 t.natAbs then 54 - Nat.log 2 t.natAbs
  else 53 - Nat.log 2 t.natAbs

/-- The value of `floor(log2(x))` for a positive `x` of magnitude `m`, where
`log2` returns the binary64 value nearest to the exact logarithm.  With `L`
the exact floor of the logarithm, the rounded logarithm is at least `L`, and
it reaches `t = L + 1` exactly when the logarithm is within half a spacing of
`t`, that is when `(m / 2^t)^(2^n)` is at least `1/2` for the `n` of
`log2_round_exp t`; the floor is then `L + 1`, and `L` otherwise. -/
def floor_log2_pos (m : ℚ) : Int :=
  if (1 / 2 : ℚ) ≤ (m / (2 : ℚ) ^ (Int.log 2 m + 1)) ^ (2 ^ log2_round_exp (Int.log 2 m + 1))
  then Int.log 2 m + 1 else Int.log 2 m

/-- The expression `(int)floor(log2(x))`; it is defined for a finite
positive `x` only (the conversion of an infinity or of NaN to `int` is
undefined). -/
def floor_log2 : double → Option Int
  | finite s m => if s = false ∧ 0 < m then some (floor_log2_pos m) else none
  | _ => none

/-- The conversion `(uint16_t)x`: truncation toward zero, undefined when the
truncated value does not fit. -/
def toUInt16 : double → Option Nat
  | finite s m =>
    if s = true ∧ 1 ≤ m then none
    else if s = true then some 0
    else if ⌊m⌋₊ ≤ 65535 then some ⌊m⌋₊ else none
  | _ => none

end double

/-- The union `fp16_t`, held as its `bits` member. -/
structure fp16_t where
  bits : Nat
deriving DecidableEq

namespace fp16_t

/-- The bit-field `parts.frac` (10 bits). -/
def frac (x : fp16_t) : Nat := x.bits % 1024

/-- The bit-field `parts.exp` (5 bits). -/
def exp (x : fp16_t) : Nat := x.bits / 1024 % 32

/-- The bit-field `parts.sign` (1 bit). -/
def sign (x : fp16_t) : Nat := x.bits / 32768 % 2

/-- The pattern with the given three fields, each reduced to its width. -/
def ofParts (sign exp frac : Nat) : fp16_t :=
  ⟨sign % 2 * 32768 + exp % 32 * 1024 + frac % 1024⟩

/-- The assignment `x.parts.frac = v`. -/
def set_frac (x : fp16_t) (v : Nat) : fp16_t := ofParts x.sign x.exp v

/-- The assignment `x.parts.exp = v`. -/
def set_exp (x : fp16_t) (v : Nat) : fp16_t := ofParts x.sign v x.frac

/-- The assignment `x.parts.sign = v`. -/
def set_sign (x : fp16_t) (v : Nat) : fp16_t := ofParts v x.exp x.frac

/-- The initialiser `{0}`. -/
def init : fp16_t := ⟨0⟩

end fp16_t

open double in
/-- Convert FP16 to double for calculation. -/
def fp16_to_double (fp16 : fp16_t) : double :=
  if fp16.exp = 0 then
    if fp16.frac = 0 then
      if fp16.sign ≠ 0 then negzero else zero
    else
      (if fp16.sign ≠ 0 then negone else one) * pow2 (-14) * (ofNat fp16.frac / ofNat 1024)
  else if fp16.exp = 31 then
    if fp16.frac = 0 then
      if fp16.sign ≠ 0 then infinity true else infinity false
    else
      nan
  else
    (if fp16.sign ≠ 0 then negone else one) * pow2 ((fp16.exp : Int) - 15)
      * (one + ofNat fp16.frac / ofNat 1024)

open double in
/-- Convert double to FP16. -/
def double_to_fp16 (val : double) : Option fp16_t :=
  let result : fp16_t := fp16_t.init
  if eq val zero then
    some result
  else if eq val negzero then
    some (result.set_sign 1)
  else if isinf val then
    some ((result.set_exp 31).set_sign (if lt val zero then 1 else 0))
  else if isnan val then
    some ((result.set_exp 31).set_frac 1)
  else
    let sign : Nat := if lt val zero then 1 else 0
    let val := fabs val
    if lt val (pow2 (-14)) then
      (toUInt16 (val * pow2 14 * ofNat 1024)).map fun f =>
        ((result.set_sign sign).set_exp 0).set_frac f
    else
      (floor_log2 val).bind fun l =>
        let exp : Int := l + 15
        let exp : Int := if exp < 0 then 0 else exp
        let exp : Int := if exp > 30 then 31 else exp
        (toUInt16 ((val / pow2 (exp - 15) - one) * ofNat 1024)).map fun f =>
          ((result.set_sign sign).set_exp exp.toNat).set_frac f

/-- FP16 multiplication (the diagnostic output is left out). -/
def fp16_multiply_debug (a b : fp16_t) : Option fp16_t :=
  let rest : Option fp16_t :=
    if (a.exp = 0 ∧ a.frac = 0) ∨ (b.exp = 0 ∧ b.frac = 0) then
      some (fp16_t.init.set_sign (a.sign ^^^ b.sign))
    else
      double_to_fp16 (fp16_to_double a * fp16_to_double b)
  if a.exp = 31 ∨ b.exp = 31 then
    if (a.exp = 31 ∧ a.frac ≠ 0) ∨ (b.exp = 31 ∧ b.frac ≠ 0) then
      some ((fp16_t.init.set_exp 31).set_frac 1)
    else if (a.exp = 31 ∧ a.frac = 0) ∨ (b.exp = 31 ∧ b.frac = 0) then
      some ((fp16_t.init.set_sign (a.sign ^^^ b.sign)).set_exp 31)
    else rest
  else rest

/-! ## Categories and values of a pattern -/

namespace fp16_t

/-- Category Zero: exponent field 0 and fraction field 0. -/
def is_zero (x : fp16_t) : Prop := x.exp = 0 ∧ x.frac = 0

/-- Category Subnormal: exponent field 0 and fraction field non-zero. -/
def is_subnormal (x : fp16_t) : Prop := x.exp = 0 ∧ x.frac ≠ 0

/-- Category Normal: exponent field between 1 and 30. -/
def is_normal (x : fp16_t) : Prop := 1 ≤ x.exp ∧ x.exp ≤ 30

/-- Category Infinity: exponent field 31 and fraction field 0. -/
def is_inf (x : fp16_t) : Prop := x.exp = 31 ∧ x.frac = 0

/-- Category NaN: exponent field 31 and fraction field non-zero. -/
def is_nan (x : fp16_t) : Prop := x.exp = 31 ∧ x.frac ≠ 0

instance (x : fp16_t) : Decidable x.is_zero := by unfold is_zero; infer_instance
instance (x : fp16_t) : Decidable x.is_subnormal := by unfold is_subnormal; infer_instance
instance (x : fp16_t) : Decidable x.is_normal := by unfold is_normal; infer_instance
instance (x : fp16_t) : Decidable x.is_inf := by unfold is_inf; infer_instance
instance (x : fp16_t) : Decidable x.is_nan := by unfold is_nan; infer_instance

/-- The magnitude a pattern with exponent field below 31 stands for. -/
def mag (x : fp16_t) : ℚ :=
  if x.exp = 0 then (2 : ℚ) ^ (-14 : Int) * ((x.frac : ℚ) / 1024)
  else (2 : ℚ) ^ ((x.exp : Int) - 15) * (1 + (x.frac : ℚ) / 1024)

/-- The rational value the decoder assigns to a pattern (`0` when the
decoder returns an infinity or NaN). -/
def value (x : fp16_t) : ℚ := (fp16_to_double x).toRat

end fp16_t

/-! ## Basic facts on the model of `double` -/

namespace double

@[simp] theorem finite_mul_finite (s t : Bool) (m n : ℚ) :
    finite s m * finite t n = finite (xor s t) (m * n) := rfl

theorem finite_div_finite (s t : Bool) (m n : ℚ) (hn : n ≠ 0) :
    finite s m / finite t n = finite (xor s t) (m / n) := by
  show div _ _ = _
  simp [div, hn]

theorem finite_add_finite_pos (m n : ℚ) (hm : 0 ≤ m) (hn : 0 ≤ n) :
    finite false m + finite false n = finite false (m + n) := by
  show add _ _ = _
  have h : 0 ≤ m + n := add_nonneg hm hn
  by_cases h0 : m + n = 0
  · simp [add, signed, h0]
  · simp [add, signed, h0, abs_of_nonneg h, not_lt.mpr h]

theorem finite_sub_finite_pos (m n : ℚ) (h : n ≤ m) :
    finite false m - finite false n = finite false (m - n) := by
  show double.add (finite false m) (double.neg (finite false n)) = _
  have h1 : 0 ≤ m - n := sub_nonneg.mpr h
  by_cases h0 : m - n = 0
  · have : m + -n = 0 := by linarith
    simp [add, neg, signed, h0, this]
  · have : m + -n ≠ 0 := fun hc => h0 (by linarith)
    have h2 : ¬ (m + -n < 0) := by intro hc; linarith
    have h3 : |m + -n| = m - n := by rw [abs_of_nonneg (by linarith)]; ring
    simp [add, neg, signed, this, h2, h3]

theorem finite_sub_finite_neg (m n : ℚ) (h : m < n) :
    finite false m - finite false n = finite true (n - m) := by
  show double.add (finite false m) (double.neg (finite false n)) = _
  have h1 : m + -n ≠ 0 := by intro hc; linarith
  have h2 : m + -n < 0 := by linarith
  have h3 : |m + -n| = n - m := by rw [abs_of_neg h2]; ring
  simp [add, neg, signed, h1, h2, h3]

theorem mul_swap (x y : double) : x * y = y * x := by
  show mul x y = mul y x
  cases x <;> cases y <;> simp [mul, Bool.xor_comm, mul_comm]

end double

/-! ## Bit-field bookkeeping -/

namespace fp16_t

theorem ofParts_sign (s e f : Nat) : (ofParts s e f).sign = s % 2 := by
  simp only [ofParts, sign]; omega

theorem ofParts_exp (s e f : Nat) : (ofParts s e f).exp = e % 32 := by
  simp only [ofParts, exp]; omega

theorem ofParts_frac (s e f : Nat) : (ofParts s e f).frac = f % 1024 := by
  simp only [ofParts, frac]; omega

theorem ofParts_bits_lt (s e f : Nat) : (ofParts s e f).bits < 65536 := by
  simp only [ofParts]; omega

theorem ofParts_fields (x : fp16_t) (h : x.bits < 65536) :
    ofParts x.sign x.exp x.frac = x := by
  cases x with
  | mk n =>
    simp only [ofParts, sign, exp, frac] at *
    congr 1
    omega

theorem set_chain (s e f : Nat) :
    ((init.set_sign s).set_exp e).set_frac f = ofParts s e f := by
  simp only [set_frac, set_exp, set_sign, ofParts_sign, ofParts_exp, ofParts_frac]
  simp only [ofParts, fp16_t.mk.injEq]
  omega

theorem mag_nonneg (x : fp16_t) : 0 ≤ x.mag := by
  unfold mag
  split <;> positivity

end fp16_t

/-! ## The decoder on patterns with exponent field below 31 -/

theorem fp16_to_double_finite (x : fp16_t) (h : x.exp ≠ 31) :
    fp16_to_double x = double.finite (decide (x.sign ≠ 0)) x.mag := by
  unfold fp16_to_double fp16_t.mag
  have h1024 : (1024 : ℚ) ≠ 0 := by norm_num
  by_cases he : x.exp = 0
  · by_cases hf : x.frac = 0
    · by_cases hs : x.sign = 0 <;> simp [he, hf, hs, double.zero, double.negzero]
    · by_cases hs : x.sign = 0 <;>
        simp [he, hf, hs, double.one, double.negone, double.pow2, double.ofNat,
          double.finite_div_finite _ _ _ _ h1024]
  · have hnn : (0 : ℚ) ≤ (x.frac : ℚ) / 1024 := by positivity
    by_cases hs : x.sign = 0 <;>
      simp [he, h, hs, double.one, double.negone, double.pow2, double.ofNat,
        double.finite_div_finite _ _ _ _ h1024,
        double.finite_add_finite_pos 1 _ zero_le_one hnn]

/-! ## The encoder on finite non-zero values -/

theorem double_to_fp16_nonzero (s : Bool) (m : ℚ) (h0 : 0 < m) :
    double_to_fp16 (double.finite s m) =
      if m < (2 : ℚ) ^ (-14 : Int) then
        (double.toUInt16 (double.finite false (m * (2 : ℚ) ^ (14 : Int) * 1024))).map fun f =>
          fp16_t.ofParts (if s then 1 else 0) 0 f
      else
        (double.toUInt16 ((double.finite false m /
            double.pow2 ((if (if double.floor_log2_pos m + 15 < 0 then 0 else double.floor_log2_pos m + 15) > 30 then 31
              else (if double.floor_log2_pos m + 15 < 0 then 0 else double.floor_log2_pos m + 15)) - 15)
            - double.one) * double.ofNat 1024)).map fun f =>
          fp16_t.ofParts (if s then 1 else 0)
            (if (if double.floor_log2_pos m + 15 < 0 then 0 else double.floor_log2_pos m + 15) > 30 then 31
              else (if double.floor_log2_pos m + 15 < 0 then 0 else double.floor_log2_pos m + 15)).toNat f := by
  have hne : m ≠ 0 := h0.ne'
  have hs : (if (decide (double.signed s m < 0)) = true then (1 : Nat) else 0)
      = if s then 1 else 0 := by
    cases s <;> simp [double.signed, h0, h0.le]
  unfold double_to_fp16
  simp only [double.eq, double.zero, double.negzero, double.isinf, double.isnan, double.lt,
    double.fabs, double.pow2, double.ofNat, double.floor_log2, fp16_t.set_chain,
    double.finite_mul_finite]
  have e1 : ¬ double.signed s m = 0 := by
    cases s <;> simp [double.signed, hne]
  have e2 : (double.signed s m < 0) ↔ s = true := by
    cases s <;> simp [double.signed, h0, h0.le]
  have e3 : ∀ q : ℚ, double.signed false q = q := by intro q; simp [double.signed]
  have e4 : double.signed true 0 = 0 := by simp [double.signed]
  simp [e1, e2, e3, e4, h0]

theorem toUInt16_nonneg (q : ℚ) (h : ⌊q⌋₊ ≤ 65535) :
    double.toUInt16 (double.finite false q) = some ⌊q⌋₊ := by
  simp [double.toUInt16, h]

theorem toUInt16_neg_small (q : ℚ) (h : q < 1) :
    double.toUInt16 (double.finite true q) = some 0 := by
  simp [double.toUInt16, h]

theorem log2_zpow_le (m : ℚ) (h0 : 0 < m) : (2 : ℚ) ^ Int.log 2 m ≤ m := by
  have := Int.zpow_log_le_self (b := 2) (r := m) (by norm_num) h0
  simpa using this

theorem log2_lt_zpow (m : ℚ) : m < (2 : ℚ) ^ (Int.log 2 m + 1) := by
  have := Int.lt_zpow_succ_log_self (b := 2) (by norm_num) m
  simpa using this

theorem le_log2_iff (m : ℚ) (h0 : 0 < m) (k : Int) : k ≤ Int.log 2 m ↔ (2 : ℚ) ^ k ≤ m := by
  have := Int.zpow_le_iff_le_log (b := 2) (x := k) (r := m) (by norm_num) h0
  simpa using this.symm

theorem log2_lt_iff (m : ℚ) (h0 : 0 < m) (k : Int) : Int.log 2 m < k ↔ m < (2 : ℚ) ^ k := by
  have := Int.lt_zpow_iff_log_lt (b := 2) (x := k) (r := m) (by norm_num) h0
  simpa using this.symm

theorem log2_eq (m : ℚ) (h0 : 0 < m) (k : Int) (h1 : (2 : ℚ) ^ k ≤ m)
    (h2 : m < (2 : ℚ) ^ (k + 1)) : Int.log 2 m = k := by
  have a := (le_log2_iff m h0 k).mpr h1
  have b := (log2_lt_iff m h0 (k + 1)).mpr h2
  omega

/-! ## The rounded logarithm -/

theorem floor_log2_pos_ge (m : ℚ) : Int.log 2 m ≤ double.floor_log2_pos m := by
  unfold double.floor_log2_pos
  split <;> omega

theorem floor_log2_pos_le (m : ℚ) : double.floor_log2_pos m ≤ Int.log 2 m + 1 := by
  unfold double.floor_log2_pos
  split <;> omega

theorem log2_round_exp_ge (t : Int) (h1 : -64 ≤ t) (h2 : t ≤ 64) :
    23 ≤ double.log2_round_exp t := by
  unfold double.log2_round_exp
  by_cases h0 : t = 0
  · simp [h0]
  · have hn : t.natAbs ≠ 0 := by omega
    have hlt : t.natAbs < 2 ^ 7 := by norm_num; omega
    have hj : Nat.log 2 t.natAbs < 7 := Nat.log_lt_of_lt_pow hn hlt
    simp only [if_neg h0]
    split <;> omega

/-- A power `x^N` with `0 ≤ x ≤ 1 - δ` and `N * δ ≥ 2` is below `1/2`. -/
theorem pow_lt_half (x δ : ℚ) (N : Nat) (hx0 : 0 ≤ x) (hx : x ≤ 1 - δ) (hδ0 : 0 ≤ δ)
    (hN : 2 ≤ (N : ℚ) * δ) : x ^ N < 1 / 2 := by
  have hδ1 : δ ≤ 1 := by linarith
  have h1 : x ^ N ≤ (1 - δ) ^ N := pow_le_pow_left₀ hx0 hx N
  have h2 : 1 + (N : ℚ) * δ ≤ (1 + δ) ^ N := one_add_mul_le_pow (by linarith) N
  have h3 : (1 - δ) ^ N * (1 + δ) ^ N ≤ 1 := by
    rw [← mul_pow]
    apply pow_le_one₀
    · nlinarith
    · nlinarith
  have h4 : (0 : ℚ) ≤ (1 - δ) ^ N := pow_nonneg (by linarith) N
  have h5 : (3 : ℚ) ≤ (1 + δ) ^ N := by linarith
  nlinarith

/-- A power `(1 - ε)^N` with `ε ≤ 1` and `N * ε ≤ 1/2` is at least `1/2`. -/
theorem half_le_pow (ε : ℚ) (N : Nat) (hε1 : ε ≤ 1) (hN : (N : ℚ) * ε ≤ 1 / 2) :
    1 / 2 ≤ (1 - ε) ^ N := by
  have h := one_add_mul_le_pow (show (-2 : ℚ) ≤ -ε by linarith) N
  have e : (1 : ℚ) + -ε = 1 - ε := by ring
  rw [e] at h
  linarith

/-- The rounded logarithm has the exact floor when `m` is at most
`(1 - 2^-22) * 2^(L+1)`, `L` the exact floor, for `L` in `-65..63`. -/
theorem floor_log2_pos_exact (m : ℚ) (h0 : 0 < m) (hL1 : -65 ≤ Int.log 2 m)
    (hL2 : Int.log 2 m ≤ 63)
    (hs : m ≤ (1 - (2 : ℚ) ^ (-22 : Int)) * (2 : ℚ) ^ (Int.log 2 m + 1)) :
    double.floor_log2_pos m = Int.log 2 m := by
  have hp : (0 : ℚ) < (2 : ℚ) ^ (Int.log 2 m + 1) := by positivity
  have hx0 : (0 : ℚ) ≤ m / (2 : ℚ) ^ (Int.log 2 m + 1) := by positivity
  have hx : m / (2 : ℚ) ^ (Int.log 2 m + 1) ≤ 1 - (2 : ℚ) ^ (-22 : Int) := by
    rw [div_le_iff₀ hp]; exact hs
  have hn := log2_round_exp_ge (Int.log 2 m + 1) (by omega) (by omega)
  have hN : (2 : ℚ) ≤ ((2 ^ double.log2_round_exp (Int.log 2 m + 1) : Nat) : ℚ)
      * (2 : ℚ) ^ (-22 : Int) := by
    have h23 : (2 : ℚ) ^ 23 ≤ (2 : ℚ) ^ double.log2_round_exp (Int.log 2 m + 1) :=
      pow_le_pow_right₀ (by norm_num) hn
    have e22 : (2 : ℚ) ^ (-22 : Int) = 1 / 2 ^ 22 := by norm_num
    push_cast
    rw [e22]
    have : (2 : ℚ) ^ 23 * (1 / 2 ^ 22) = 2 := by norm_num
    nlinarith
  have hlt := pow_lt_half _ _ _ hx0 hx (by positivity) hN
  unfold double.floor_log2_pos
  rw [if_neg (not_le.mpr hlt)]

/-- The rounded logarithm is one above the exact floor when `m / 2^t` is
`1 - ε` with `2^n * ε ≤ 1/2`, for `t` one above the exact floor and `n` the
exponent of `log2_round_exp t`. -/
theorem floor_log2_pos_bump (m ε : ℚ) (t : Int) (n : Nat) (ht : Int.log 2 m + 1 = t)
    (hn : double.log2_round_exp t = n) (hm : m / (2 : ℚ) ^ t = 1 - ε)
    (hε1 : ε ≤ 1) (hN : (2 : ℚ) ^ n * ε ≤ 1 / 2) :
    double.floor_log2_pos m = t := by
  have hc : (1 / 2 : ℚ) ≤ (1 - ε) ^ (2 ^ n) :=
    half_le_pow ε (2 ^ n) hε1 (by push_cast; exact hN)
  unfold double.floor_log2_pos
  rw [ht, hn, hm, if_pos hc]

/-- At `8 - 2^-50`, the binary64 value just below `8`, the exact floor of the
logarithm is 2 and the rounded logarithm gives 3. -/
theorem floor_log2_pos_below_eight :
    Int.log 2 (8 - 1 / 1125899906842624 : ℚ) = 2 ∧
    double.floor_log2_pos (8 - 1 / 1125899906842624) = 3 := by
  have hL : Int.log 2 (8 - 1 / 1125899906842624 : ℚ) = 2 :=
    log2_eq _ (by norm_num) 2 (by norm_num) (by norm_num)
  have hlog : Nat.log 2 3 = 1 := by
    have h1 : Nat.log 2 3 < 2 := Nat.log_lt_of_lt_pow (by norm_num) (by norm_num)
    have h2 : 1 ≤ Nat.log 2 3 := by
      have := Nat.log_mono_right (b := 2) (show 2 ≤ 3 by norm_num)
      rw [show Nat.log 2 2 = 1 from Nat.log_pow (by norm_num) 1] at this
      exact this
    omega
  have hn : double.log2_round_exp 3 = 52 := by
    simp [double.log2_round_exp, hlog]
  exact ⟨hL, floor_log2_pos_bump _ (1 / 2 ^ 53) 3 52 (by rw [hL]; norm_num) hn (by norm_num)
    (by norm_num) (by norm_num)⟩

/-- A value `k * 2^e` with `0 < k < 2^22` is at most `(1 - 2^-22) * 2^(L+1)`,
`L` the exact floor of its logarithm. -/
theorem dyadic_short (k : Nat) (e : Int) (hk0 : 0 < k) (hk : k < 2 ^ 22) :
    (k : ℚ) * (2 : ℚ) ^ e ≤
      (1 - (2 : ℚ) ^ (-22 : Int)) * (2 : ℚ) ^ (Int.log 2 ((k : ℚ) * (2 : ℚ) ^ e) + 1) := by
  have hkq : (0 : ℚ) < (k : ℚ) := by exact_mod_cast hk0
  have hpe : (0 : ℚ) < (2 : ℚ) ^ e := by positivity
  have h0 : (0 : ℚ) < (k : ℚ) * (2 : ℚ) ^ e := by positivity
  generalize hL : Int.log 2 ((k : ℚ) * (2 : ℚ) ^ e) = L
  have hlo : (2 : ℚ) ^ L ≤ (k : ℚ) * (2 : ℚ) ^ e := by rw [← hL]; exact log2_zpow_le _ h0
  have hhi : (k : ℚ) * (2 : ℚ) ^ e < (2 : ℚ) ^ (L + 1) := by rw [← hL]; exact log2_lt_zpow _
  -- `k < 2^(L+1-e)` and `2^(L-e) ≤ k`
  have hk1 : (k : ℚ) < (2 : ℚ) ^ (L + 1 - e) := by
    rw [zpow_sub₀ (by norm_num), lt_div_iff₀ hpe]; exact hhi
  have hk2 : (2 : ℚ) ^ (L - e) ≤ (k : ℚ) := by
    rw [zpow_sub₀ (by norm_num), div_le_iff₀ hpe]; exact hlo
  have hd : 0 ≤ L + 1 - e := by
    by_contra hc
    have : (2 : ℚ) ^ (L + 1 - e) ≤ (2 : ℚ) ^ (0 : Int) :=
      zpow_le_zpow_right₀ (by norm_num) (by omega)
    have hk1' : (1 : ℚ) ≤ (k : ℚ) := by exact_mod_cast hk0
    norm_num at this
    linarith
  have hle22 : L - e < 22 := by
    by_contra hc
    have : (2 : ℚ) ^ (22 : Int) ≤ (2 : ℚ) ^ (L - e) :=
      zpow_le_zpow_right₀ (by norm_num) (by omega)
    have hkq2 : (k : ℚ) < (2 : ℚ) ^ (22 : Int) := by
      have hk' : k < 4194304 := by simpa using hk
      norm_num
      exact hk'
    linarith
  -- pass to natural numbers
  obtain ⟨d, hd'⟩ := Int.eq_ofNat_of_zero_le hd
  have hk3 : k < 2 ^ d := by
    have : (k : ℚ) < ((2 ^ d : Nat) : ℚ) := by
      rw [hd', zpow_natCast] at hk1
      push_cast
      exact hk1
    exact_mod_cast this
  have hk4 : (k : ℚ) + 1 ≤ (2 : ℚ) ^ (L + 1 - e) := by
    rw [hd', zpow_natCast]
    have : k + 1 ≤ 2 ^ d := hk3
    exact_mod_cast this
  have hsplit : (2 : ℚ) ^ (L + 1) = (2 : ℚ) ^ (L + 1 - e) * (2 : ℚ) ^ e := by
    rw [← zpow_add₀ (by norm_num)]; congr 1; ring
  have h22 : (2 : ℚ) ^ (-22 : Int) * (2 : ℚ) ^ (L + 1) ≤ (2 : ℚ) ^ e := by
    rw [← zpow_add₀ (by norm_num)]
    exact zpow_le_zpow_right₀ (by norm_num) (by omega)
  have h5 : ((k : ℚ) + 1) * (2 : ℚ) ^ e ≤ (2 : ℚ) ^ (L + 1) := by
    rw [hsplit]
    exact mul_le_mul_of_nonneg_right hk4 hpe.le
  nlinarith

/-- On `k * 2^e` with `0 < k < 2^22` and `-48 ≤ e ≤ 10` the rounded logarithm
has the exact floor. -/
theorem dyadic_floor_log2 (k : Nat) (e : Int) (hk0 : 0 < k) (hk : k < 2 ^ 22) (he1 : -48 ≤ e)
    (he2 : e ≤ 10) :
    double.floor_log2_pos ((k : ℚ) * (2 : ℚ) ^ e) = Int.log 2 ((k : ℚ) * (2 : ℚ) ^ e) := by
  have hkq : (1 : ℚ) ≤ (k : ℚ) := by exact_mod_cast hk0
  have hkq2 : (k : ℚ) < (2 : ℚ) ^ (22 : Int) := by
    have hk' : k < 4194304 := by simpa using hk
    norm_num
    exact hk'
  have hpe : (0 : ℚ) < (2 : ℚ) ^ e := by positivity
  have h0 : (0 : ℚ) < (k : ℚ) * (2 : ℚ) ^ e := by positivity
  have hlo : e ≤ Int.log 2 ((k : ℚ) * (2 : ℚ) ^ e) := by
    rw [le_log2_iff _ h0]
    nlinarith
  have hhi : Int.log 2 ((k : ℚ) * (2 : ℚ) ^ e) < 22 + e := by
    rw [log2_lt_iff _ h0, zpow_add₀ (by norm_num)]
    exact mul_lt_mul_of_pos_right hkq2 hpe
  exact floor_log2_pos_exact _ h0 (by omega) (by omega) (dyadic_short k e hk0 hk)

/-- The encoder below `2^-14`: exponent field 0, fraction `floor(m * 2^14 * 1024)`. -/
theorem double_to_fp16_small (s : Bool) (m : ℚ) (h0 : 0 < m) (h : m < (2 : ℚ) ^ (-14 : Int)) :
    double_to_fp16 (double.finite s m) =
      some (fp16_t.ofParts (if s then 1 else 0) 0 ⌊m * (2 : ℚ) ^ (14 : Int) * 1024⌋₊) ∧
    ⌊m * (2 : ℚ) ^ (14 : Int) * 1024⌋₊ ≤ 1023 := by
  have hb : m * (2 : ℚ) ^ (14 : Int) * 1024 < 1024 := by
    have h14 : (2 : ℚ) ^ (-14 : Int) * (2 : ℚ) ^ (14 : Int) = 1 := by norm_num
    have hp : (0 : ℚ) < (2 : ℚ) ^ (14 : Int) := by positivity
    nlinarith
  have hnn : (0 : ℚ) ≤ m * (2 : ℚ) ^ (14 : Int) * 1024 := by positivity
  have hf : ⌊m * (2 : ℚ) ^ (14 : Int) * 1024⌋₊ < 1024 := by
    rw [Nat.floor_lt hnn]; exact_mod_cast hb
  refine ⟨?_, by omega⟩
  rw [double_to_fp16_nonzero s m h0, if_pos h, toUInt16_nonneg _ (by omega)]
  rfl

/-- The encoder on `[2^-14, 65536)` where the rounded logarithm has the exact
floor `L`: exponent field `L + 15`, which lies in `1..30`, and fraction
`floor((m / 2^L - 1) * 1024)`, which lies in `0..1023`. -/
theorem double_to_fp16_mid (s : Bool) (m : ℚ) (h1 : (2 : ℚ) ^ (-14 : Int) ≤ m)
    (h2 : m < 65536) (hx : double.floor_log2_pos m = Int.log 2 m) :
    double_to_fp16 (double.finite s m) =
      some (fp16_t.ofParts (if s then 1 else 0) (Int.log 2 m + 15).toNat
        ⌊(m / (2 : ℚ) ^ Int.log 2 m - 1) * 1024⌋₊) ∧
    1 ≤ Int.log 2 m + 15 ∧ Int.log 2 m + 15 ≤ 30 ∧
    ⌊(m / (2 : ℚ) ^ Int.log 2 m - 1) * 1024⌋₊ ≤ 1023 := by
  have h0 : 0 < m := lt_of_lt_of_le (by positivity) h1
  have hlo : -14 ≤ Int.log 2 m := (le_log2_iff m h0 _).mpr h1
  have hhi : Int.log 2 m < 16 := (log2_lt_iff m h0 _).mpr (by norm_num; exact h2)
  have hp : (0 : ℚ) < (2 : ℚ) ^ Int.log 2 m := by positivity
  have hge : 1 ≤ m / (2 : ℚ) ^ Int.log 2 m := by
    rw [le_div_iff₀ hp]; simpa using log2_zpow_le m h0
  have hlt : m / (2 : ℚ) ^ Int.log 2 m < 2 := by
    rw [div_lt_iff₀ hp]
    have := log2_lt_zpow m
    rw [zpow_add_one₀ (by norm_num)] at this
    linarith
  have hnn : (0 : ℚ) ≤ (m / (2 : ℚ) ^ Int.log 2 m - 1) * 1024 := by
    have : (0 : ℚ) ≤ m / (2 : ℚ) ^ Int.log 2 m - 1 := by linarith
    positivity
  have hf : ⌊(m / (2 : ℚ) ^ Int.log 2 m - 1) * 1024⌋₊ < 1024 := by
    rw [Nat.floor_lt hnn]; push_cast; linarith
  refine ⟨?_, by omega, by omega, by omega⟩
  rw [double_to_fp16_nonzero s m h0, if_neg (not_lt.mpr h1), hx]
  have c1 : ¬ (Int.log 2 m + 15 < 0) := by omega
  have c2 : ¬ (Int.log 2 m + 15 > 30) := by omega
  simp only [if_neg c1, if_neg c2, add_sub_cancel_right, double.pow2, double.one, double.ofNat]
  rw [double.finite_div_finite _ _ _ _ hp.ne']
  simp only [Bool.xor_false]
  rw [double.finite_sub_finite_pos _ _ hge]
  simp only [double.finite_mul_finite, Bool.xor_false, Nat.cast_ofNat]
  rw [toUInt16_nonneg _ (by omega)]
  rfl

/-! Exactness of the wide arithmetic: every magnitude the decoder produces is
an integer below `2^11` times a power of two, so a product of two of them is
an integer below `2^22` times a power of two with exponent in `-48..10`, which
binary64 holds without rounding.  On such values the logarithm stays more than
half a spacing below the next integer, so `floor(log2(x))` is the exact floor
(`mag_floor_log2`, `product_floor_log2`). -/

theorem mag_dyadic (x : fp16_t) (h : x.exp ≠ 31) :
    ∃ k : Nat, ∃ e : Int, k < 2048 ∧ -24 ≤ e ∧ e ≤ 5 ∧ x.mag = (k : ℚ) * (2 : ℚ) ^ e := by
  have hf : x.frac < 1024 := Nat.mod_lt _ (by norm_num)
  have he : x.exp < 32 := Nat.mod_lt _ (by norm_num)
  by_cases h0 : x.exp = 0
  · refine ⟨x.frac, -24, by omega, by omega, by omega, ?_⟩
    simp only [fp16_t.mag, if_pos h0]
    norm_num
    ring
  · refine ⟨1024 + x.frac, (x.exp : Int) - 25, by omega, by omega, by omega, ?_⟩
    simp only [fp16_t.mag, if_neg h0]
    have e1 : (2 : ℚ) ^ ((x.exp : Int) - 15) = (2 : ℚ) ^ ((x.exp : Int) - 25) * 1024 := by
      rw [show (x.exp : Int) - 15 = ((x.exp : Int) - 25) + 10 by ring,
        zpow_add₀ (by norm_num)]
      norm_num
    rw [e1]
    push_cast
    ring

theorem product_dyadic (a b : fp16_t) (ha : a.exp ≠ 31) (hb : b.exp ≠ 31) :
    ∃ k : Nat, ∃ e : Int, k < 2 ^ 22 ∧ -48 ≤ e ∧ e ≤ 10 ∧
      a.mag * b.mag = (k : ℚ) * (2 : ℚ) ^ e := by
  obtain ⟨k1, e1, hk1, l1, u1, h1⟩ := mag_dyadic a ha
  obtain ⟨k2, e2, hk2, l2, u2, h2⟩ := mag_dyadic b hb
  refine ⟨k1 * k2, e1 + e2, ?_, by omega, by omega, ?_⟩
  · have : k1 * k2 ≤ 2047 * 2047 := Nat.mul_le_mul (by omega) (by omega)
    omega
  · rw [h1, h2, zpow_add₀ (by norm_num)]
    push_cast
    ring

/-- On a decoded non-zero magnitude the rounded logarithm has the exact floor. -/
theorem mag_floor_log2 (x : fp16_t) (h : x.exp ≠ 31) (h0 : 0 < x.mag) :
    double.floor_log2_pos x.mag = Int.log 2 x.mag := by
  obtain ⟨k, e, hk, l, u, hm⟩ := mag_dyadic x h
  have hk0 : 0 < k := by
    rcases Nat.eq_zero_or_pos k with hz | hz
    · rw [hm, hz] at h0; simp at h0
    · exact hz
  rw [hm]
  exact dyadic_floor_log2 k e hk0 (by omega) (by omega) (by omega)

/-- On a non-zero product of two decoded magnitudes the rounded logarithm has
the exact floor. -/
theorem product_floor_log2 (a b : fp16_t) (ha : a.exp ≠ 31) (hb : b.exp ≠ 31)
    (h0 : 0 < a.mag * b.mag) :
    double.floor_log2_pos (a.mag * b.mag) = Int.log 2 (a.mag * b.mag) := by
  obtain ⟨k, e, hk, l, u, hm⟩ := product_dyadic a b ha hb
  have hk0 : 0 < k := by
    rcases Nat.eq_zero_or_pos k with hz | hz
    · rw [hm, hz] at h0; simp at h0
    · exact hz
  rw [hm]
  exact dyadic_floor_log2 k e hk0 hk l u

/-! ## The multiplier, branch by branch -/

theorem fp16_multiply_debug_nan (a b : fp16_t) (h : a.is_nan ∨ b.is_nan) :
    fp16_multiply_debug a b = some ((fp16_t.init.set_exp 31).set_frac 1) := by
  unfold fp16_t.is_nan at h
  have h31 : a.exp = 31 ∨ b.exp = 31 := by tauto
  simp only [fp16_multiply_debug, if_pos h31, if_pos h]

theorem fp16_multiply_debug_inf (a b : fp16_t) (hn : ¬ a.is_nan ∧ ¬ b.is_nan)
    (h : a.is_inf ∨ b.is_inf) :
    fp16_multiply_debug a b = some ((fp16_t.init.set_sign (a.sign ^^^ b.sign)).set_exp 31) := by
  unfold fp16_t.is_nan at hn
  unfold fp16_t.is_inf at h
  have h31 : a.exp = 31 ∨ b.exp = 31 := by tauto
  have hnn : ¬ ((a.exp = 31 ∧ a.frac ≠ 0) ∨ (b.exp = 31 ∧ b.frac ≠ 0)) := by tauto
  simp only [fp16_multiply_debug, if_pos h31, if_neg hnn, if_pos h]

theorem fp16_multiply_debug_zero (a b : fp16_t) (ha : a.exp ≠ 31) (hb : b.exp ≠ 31)
    (h : a.is_zero ∨ b.is_zero) :
    fp16_multiply_debug a b = some (fp16_t.init.set_sign (a.sign ^^^ b.sign)) := by
  unfold fp16_t.is_zero at h
  have h31 : ¬ (a.exp = 31 ∨ b.exp = 31) := by tauto
  simp only [fp16_multiply_debug, if_neg h31, if_pos h]

theorem fp16_multiply_debug_generic (a b : fp16_t) (ha : a.exp ≠ 31) (hb : b.exp ≠ 31)
    (hza : ¬ a.is_zero) (hzb : ¬ b.is_zero) :
    fp16_multiply_debug a b =
      double_to_fp16 (double.finite (xor (decide (a.sign ≠ 0)) (decide (b.sign ≠ 0)))
        (a.mag * b.mag)) := by
  unfold fp16_t.is_zero at hza hzb
  have h31 : ¬ (a.exp = 31 ∨ b.exp = 31) := by tauto
  have hz : ¬ ((a.exp = 0 ∧ a.frac = 0) ∨ (b.exp = 0 ∧ b.frac = 0)) := by tauto
  simp only [fp16_multiply_debug, if_neg h31, if_neg hz, fp16_to_double_finite a ha,
    fp16_to_double_finite b hb, double.finite_mul_finite]

theorem sign_cases (x : fp16_t) : x.sign = 0 ∨ x.sign = 1 := by
  unfold fp16_t.sign; omega

theorem sign_xor_lt (a b : fp16_t) : (a.sign ^^^ b.sign) % 2 = a.sign ^^^ b.sign := by
  rcases sign_cases a with h | h <;> rcases sign_cases b with k | k <;> rw [h, k] <;> decide

theorem inf_result_fields (s : Nat) :
    ((fp16_t.init.set_sign s).set_exp 31).bits < 65536 ∧
    ((fp16_t.init.set_sign s).set_exp 31).sign = s % 2 ∧
    ((fp16_t.init.set_sign s).set_exp 31).exp = 31 ∧
    ((fp16_t.init.set_sign s).set_exp 31).frac = 0 := by
  refine ⟨fp16_t.ofParts_bits_lt _ _ _, ?_, ?_, ?_⟩
  · rw [fp16_t.set_exp, fp16_t.set_sign, fp16_t.ofParts_sign, fp16_t.ofParts_sign]
    omega
  · rw [fp16_t.set_exp, fp16_t.ofParts_exp]
  · rw [fp16_t.set_exp, fp16_t.set_sign, fp16_t.ofParts_frac, fp16_t.ofParts_frac]
    simp [fp16_t.init, fp16_t.frac]

theorem zero_result_fields (s : Nat) :
    (fp16_t.init.set_sign s).bits < 65536 ∧
    (fp16_t.init.set_sign s).sign = s % 2 ∧
    (fp16_t.init.set_sign s).exp = 0 ∧
    (fp16_t.init.set_sign s).frac = 0 := by
  refine ⟨fp16_t.ofParts_bits_lt _ _ _, ?_, ?_, ?_⟩
  · rw [fp16_t.set_sign, fp16_t.ofParts_sign]
  · rw [fp16_t.set_sign, fp16_t.ofParts_exp]
    simp [fp16_t.init, fp16_t.exp]
  · rw [fp16_t.set_sign, fp16_t.ofParts_frac]
    simp [fp16_t.init, fp16_t.frac]

theorem sign_flag (x : fp16_t) : (if decide (x.sign ≠ 0) = true then 1 else 0) = x.sign := by
  rcases sign_cases x with h | h <;> simp [h]

theorem mag_subnormal_lt (x : fp16_t) (h : x.exp = 0) : x.mag < (2 : ℚ) ^ (-14 : Int) := by
  have hf : (x.frac : ℚ) < 1024 := by
    have : x.frac < 1024 := Nat.mod_lt _ (by norm_num)
    exact_mod_cast this
  simp only [fp16_t.mag, if_pos h]
  have hp : (0 : ℚ) < (2 : ℚ) ^ (-14 : Int) := by positivity
  have : (x.frac : ℚ) / 1024 < 1 := by rw [div_lt_one (by norm_num)]; exact hf
  nlinarith

theorem mag_normal_bounds (x : fp16_t) (h : x.exp ≠ 0) :
    (2 : ℚ) ^ ((x.exp : Int) - 15) ≤ x.mag ∧ x.mag < (2 : ℚ) ^ ((x.exp : Int) - 15 + 1) := by
  have hf : (x.frac : ℚ) < 1024 := by
    have : x.frac < 1024 := Nat.mod_lt _ (by norm_num)
    exact_mod_cast this
  have hp : (0 : ℚ) < (2 : ℚ) ^ ((x.exp : Int) - 15) := by positivity
  have h0 : (0 : ℚ) ≤ (x.frac : ℚ) / 1024 := by positivity
  have h1 : (x.frac : ℚ) / 1024 < 1 := by rw [div_lt_one (by norm_num)]; exact hf
  simp only [fp16_t.mag, if_neg h]
  rw [zpow_add_one₀ (by norm_num)]
  constructor <;> nlinarith

theorem mag_pos (x : fp16_t) (h : ¬ x.is_zero) : 0 < x.mag := by
  unfold fp16_t.is_zero at h
  by_cases he : x.exp = 0
  · have hf : x.frac ≠ 0 := fun hc => h ⟨he, hc⟩
    have : (0 : ℚ) < (x.frac : ℚ) := by exact_mod_cast Nat.pos_of_ne_zero hf
    simp only [fp16_t.mag, if_pos he]
    positivity
  · exact lt_of_lt_of_le (by positivity) (mag_normal_bounds x he).1

/-! ## The encoder returns the largest pattern magnitude below its argument -/

theorem frac_cast_lt (x : fp16_t) : (x.frac : ℚ) < 1024 := by
  have : x.frac < 1024 := Nat.mod_lt _ (by norm_num)
  exact_mod_cast this

theorem encode_small_floor (s : Nat) (m : ℚ) (h0 : 0 < m) (h : m < (2 : ℚ) ^ (-14 : Int))
    (r : fp16_t) (hr : r = fp16_t.ofParts s 0 ⌊m * (2 : ℚ) ^ (14 : Int) * 1024⌋₊)
    (hF : ⌊m * (2 : ℚ) ^ (14 : Int) * 1024⌋₊ ≤ 1023) :
    r.exp = 0 ∧ r.mag ≤ m ∧ ∀ q : fp16_t, q.exp ≠ 31 → q.mag ≤ m → q.mag ≤ r.mag := by
  have hnn : (0 : ℚ) ≤ m * (2 : ℚ) ^ (14 : Int) * 1024 := by positivity
  have he : r.exp = 0 := by rw [hr, fp16_t.ofParts_exp]
  have hf : r.frac = ⌊m * (2 : ℚ) ^ (14 : Int) * 1024⌋₊ := by
    rw [hr, fp16_t.ofParts_frac]; omega
  have hrm : r.mag = (2 : ℚ) ^ (-14 : Int) * ((⌊m * (2 : ℚ) ^ (14 : Int) * 1024⌋₊ : ℚ) / 1024) := by
    simp only [fp16_t.mag, if_pos he, hf]
  refine ⟨he, ?_, ?_⟩
  · rw [hrm]
    have := Nat.floor_le hnn
    norm_num at this ⊢
    linarith
  · intro q _ hq
    by_cases hqe : q.exp = 0
    · rw [hrm]
      simp only [fp16_t.mag, if_pos hqe] at hq ⊢
      have : q.frac ≤ ⌊m * (2 : ℚ) ^ (14 : Int) * 1024⌋₊ := by
        rw [Nat.le_floor_iff hnn]
        norm_num at hq ⊢
        linarith
      gcongr
    · exfalso
      have hb := (mag_normal_bounds q hqe).1
      have : (2 : ℚ) ^ (-14 : Int) ≤ (2 : ℚ) ^ ((q.exp : Int) - 15) :=
        zpow_le_zpow_right₀ (by norm_num) (by omega)
      linarith

theorem encode_mid_floor (s : Nat) (m : ℚ) (h0 : 0 < m)
    (r : fp16_t)
    (hr : r = fp16_t.ofParts s (Int.log 2 m + 15).toNat ⌊(m / (2 : ℚ) ^ Int.log 2 m - 1) * 1024⌋₊)
    (h1 : 1 ≤ Int.log 2 m + 15) (h2 : Int.log 2 m + 15 ≤ 30)
    (hF : ⌊(m / (2 : ℚ) ^ Int.log 2 m - 1) * 1024⌋₊ ≤ 1023) :
    r.exp ≠ 31 ∧ r.mag ≤ m ∧ ∀ q : fp16_t, q.exp ≠ 31 → q.mag ≤ m → q.mag ≤ r.mag := by
  have hp : (0 : ℚ) < (2 : ℚ) ^ Int.log 2 m := by positivity
  have hge : 1 ≤ m / (2 : ℚ) ^ Int.log 2 m := by
    rw [le_div_iff₀ hp]; simpa using log2_zpow_le m h0
  have hnn : (0 : ℚ) ≤ (m / (2 : ℚ) ^ Int.log 2 m - 1) * 1024 := by
    have : (0 : ℚ) ≤ m / (2 : ℚ) ^ Int.log 2 m - 1 := by linarith
    positivity
  have he : r.exp = (Int.log 2 m + 15).toNat := by rw [hr, fp16_t.ofParts_exp]; omega
  have hf : r.frac = ⌊(m / (2 : ℚ) ^ Int.log 2 m - 1) * 1024⌋₊ := by
    rw [hr, fp16_t.ofParts_frac]; omega
  have he0 : r.exp ≠ 0 := by omega
  have hei : (r.exp : Int) - 15 = Int.log 2 m := by omega
  have hrm : r.mag = (2 : ℚ) ^ Int.log 2 m *
      (1 + (⌊(m / (2 : ℚ) ^ Int.log 2 m - 1) * 1024⌋₊ : ℚ) / 1024) := by
    simp only [fp16_t.mag, if_neg he0, hf, hei]
  have hfl := Nat.floor_le hnn
  have hrle : r.mag ≤ m := by
    rw [hrm]
    have h4 : 1 + (⌊(m / (2 : ℚ) ^ Int.log 2 m - 1) * 1024⌋₊ : ℚ) / 1024
        ≤ m / (2 : ℚ) ^ Int.log 2 m := by linarith
    calc (2 : ℚ) ^ Int.log 2 m * (1 + (⌊(m / (2 : ℚ) ^ Int.log 2 m - 1) * 1024⌋₊ : ℚ) / 1024)
        ≤ (2 : ℚ) ^ Int.log 2 m * (m / (2 : ℚ) ^ Int.log 2 m) :=
          mul_le_mul_of_nonneg_left h4 hp.le
      _ = m := by field_simp
  have hlow : (2 : ℚ) ^ Int.log 2 m ≤ r.mag := by
    have := (mag_normal_bounds r he0).1
    rwa [hei] at this
  refine ⟨by omega, hrle, ?_⟩
  intro q _ hq
  by_cases hqe : q.exp = 0
  · have := mag_subnormal_lt q hqe
    have h14 : (2 : ℚ) ^ (-14 : Int) ≤ (2 : ℚ) ^ Int.log 2 m :=
      zpow_le_zpow_right₀ (by norm_num) (by omega)
    linarith
  · have hb := mag_normal_bounds q hqe
    rcases lt_trichotomy ((q.exp : Int) - 15) (Int.log 2 m) with hlt | heq | hgt
    · have : (2 : ℚ) ^ ((q.exp : Int) - 15 + 1) ≤ (2 : ℚ) ^ Int.log 2 m :=
        zpow_le_zpow_right₀ (by norm_num) (by omega)
      linarith
    · rw [hrm]
      simp only [fp16_t.mag, if_neg hqe, heq] at hq ⊢
      have hq2 : 1 + (q.frac : ℚ) / 1024 ≤ m / (2 : ℚ) ^ Int.log 2 m := by
        rw [le_div_iff₀ hp]; linarith
      have : q.frac ≤ ⌊(m / (2 : ℚ) ^ Int.log 2 m - 1) * 1024⌋₊ := by
        rw [Nat.le_floor_iff hnn]
        linarith
      gcongr
    · exfalso
      have h3 : (2 : ℚ) ^ (Int.log 2 m + 1) ≤ (2 : ℚ) ^ ((q.exp : Int) - 15) :=
        zpow_le_zpow_right₀ (by norm_num) (by omega)
      have := log2_lt_zpow m
      linarith

theorem value_eq (x : fp16_t) (h : x.exp ≠ 31) :
    x.value = double.signed (decide (x.sign ≠ 0)) x.mag := by
  rw [fp16_t.value, fp16_to_double_finite x h]
  rfl

theorem abs_value (x : fp16_t) (h : x.exp ≠ 31) : |x.value| = x.mag := by
  rw [value_eq x h]
  have := fp16_t.mag_nonneg x
  by_cases hs : x.sign = 0 <;> simp [double.signed, hs, abs_of_nonneg this]

theorem signed_mul (s t : Bool) (m n : ℚ) :
    double.signed s m * double.signed t n = double.signed (xor s t) (m * n) := by
  cases s <;> cases t <;> simp [double.signed]

theorem signed_neg_iff (s : Bool) (m : ℚ) (h : 0 < m) : double.signed s m < 0 ↔ s = true := by
  cases s <;> simp [double.signed, h, h.le]

theorem abs_signed (s : Bool) (m : ℚ) (h : 0 ≤ m) : |double.signed s m| = m := by
  cases s <;> simp [double.signed, abs_of_nonneg h]

theorem flag_mod (s : Bool) : (if s = true then 1 else 0) % 2 = if s = true then 1 else 0 := by
  cases s <;> rfl

/-! ## The encoder at and above 65536, and on decoded magnitudes -/

/-- The encoder from `65536` on: the exponent is clamped to 31 and the fraction
is the cast of `(m / 2^16 - 1) * 1024`. -/
theorem double_to_fp16_big (s : Bool) (m : ℚ) (h : 65536 ≤ m) :
    double_to_fp16 (double.finite s m) =
      (double.toUInt16 (double.finite false ((m / 65536 - 1) * 1024))).map fun f =>
        fp16_t.ofParts (if s then 1 else 0) 31 f := by
  have h0 : 0 < m := lt_of_lt_of_le (by norm_num) h
  have h14 : ¬ m < (2 : ℚ) ^ (-14 : Int) := by
    have : (2 : ℚ) ^ (-14 : Int) < 65536 := by norm_num
    intro hc; linarith
  have hlog : 16 ≤ Int.log 2 m := (le_log2_iff m h0 16).mpr (by norm_num; exact h)
  have hfl := floor_log2_pos_ge m
  have c1 : ¬ (double.floor_log2_pos m + 15 < 0) := by omega
  have c2 : double.floor_log2_pos m + 15 > 30 := by omega
  have hge : (1 : ℚ) ≤ m / 65536 := by rw [le_div_iff₀ (by norm_num)]; linarith
  rw [double_to_fp16_nonzero s m h0, if_neg h14]
  simp only [if_neg c1, if_pos c2, double.pow2, double.one, double.ofNat]
  have e16 : (2 : ℚ) ^ ((31 : Int) - 15) = 65536 := by norm_num
  rw [e16, double.finite_div_finite _ _ _ _ (by norm_num)]
  simp only [Bool.xor_false]
  rw [double.finite_sub_finite_pos _ _ hge]
  simp only [double.finite_mul_finite, Bool.xor_false, Nat.cast_ofNat]
  rfl

/-- Encoding the magnitude of a non-zero pattern with exponent field below 31
gives back its exponent and fraction fields. -/
theorem double_to_fp16_mag (s : Bool) (p : fp16_t) (h31 : p.exp ≠ 31) (hz : ¬ p.is_zero) :
    double_to_fp16 (double.finite s p.mag) =
      some (fp16_t.ofParts (if s then 1 else 0) p.exp p.frac) := by
  have h0 := mag_pos p hz
  by_cases he : p.exp = 0
  · rw [(double_to_fp16_small s _ h0 (mag_subnormal_lt p he)).1]
    have hv : p.mag * (2 : ℚ) ^ (14 : Int) * 1024 = (p.frac : ℚ) := by
      simp only [fp16_t.mag, if_pos he]
      norm_num
      ring
    rw [hv, Nat.floor_natCast, he]
  · have hb := mag_normal_bounds p he
    have hlog : Int.log 2 p.mag = (p.exp : Int) - 15 := log2_eq _ h0 _ hb.1 hb.2
    have hexp : p.exp < 31 := by
      have : p.exp < 32 := Nat.mod_lt _ (by norm_num)
      omega
    have hlo : (2 : ℚ) ^ (-14 : Int) ≤ p.mag :=
      le_trans (zpow_le_zpow_right₀ (by norm_num) (by omega)) hb.1
    have hhi : p.mag < 65536 := by
      have : (2 : ℚ) ^ ((p.exp : Int) - 15 + 1) ≤ (2 : ℚ) ^ (16 : Int) :=
        zpow_le_zpow_right₀ (by norm_num) (by omega)
      have e : (2 : ℚ) ^ (16 : Int) = 65536 := by norm_num
      linarith [hb.2]
    rw [(double_to_fp16_mid s _ hlo hhi (mag_floor_log2 p h31 h0)).1, hlog]
    have hv : (p.mag / (2 : ℚ) ^ ((p.exp : Int) - 15) - 1) * 1024 = (p.frac : ℚ) := by
      have hpp : (2 : ℚ) ^ ((p.exp : Int) - 15) ≠ 0 := by positivity
      simp only [fp16_t.mag, if_neg he]
      field_simp
      ring
    have ht : ((p.exp : Int) - 15 + 15).toNat = p.exp := by omega
    rw [hv, Nat.floor_natCast, ht]

theorem inf_result_eq (s : Nat) :
    (fp16_t.init.set_sign s).set_exp 31 = fp16_t.ofParts s 31 0 := by
  simp only [fp16_t.set_exp, fp16_t.set_sign, fp16_t.ofParts_sign, fp16_t.ofParts_frac]
  simp only [fp16_t.ofParts, fp16_t.init, fp16_t.frac, fp16_t.mk.injEq]
  omega

theorem zero_result_eq (s : Nat) :
    fp16_t.init.set_sign s = fp16_t.ofParts s 0 0 := by
  simp only [fp16_t.set_sign, fp16_t.ofParts, fp16_t.init, fp16_t.frac, fp16_t.exp,
    fp16_t.mk.injEq]

theorem one_fields :
    (fp16_t.mk 0x3C00).exp = 15 ∧ (fp16_t.mk 0x3C00).frac = 0 ∧ (fp16_t.mk 0x3C00).sign = 0 ∧
    (fp16_t.mk 0x3C00).mag = 1 := by
  refine ⟨by decide, by decide, by decide, ?_⟩
  simp only [fp16_t.mag, fp16_t.exp, fp16_t.frac]
  norm_num

theorem decode_exp31 (r : fp16_t) (h : r.exp = 31) :
    (r.frac ≠ 0 → fp16_to_double r = double.nan) ∧
    (r.frac = 0 → fp16_to_double r = double.inf (decide (r.sign ≠ 0))) := by
  constructor
  · intro hf
    simp [fp16_to_double, h, hf]
  · intro hf
    by_cases hs : r.sign = 0 <;> simp [fp16_to_double, h, hf, hs, double.infinity]

/-! ## Properties of the specification -/

/-- C1 (evaluation at the claimed input): on the patterns `0x4689` and `0x0025`
the multiplier returns `0x00f1`, not the `0x00f2` that the claim and the
expectation printed by `main` state. -/
theorem C1_multiply_4689_0025 :
    fp16_multiply_debug ⟨0x4689⟩ ⟨0x0025⟩ = some ⟨0x00f1⟩ ∧
    fp16_multiply_debug ⟨0x4689⟩ ⟨0x0025⟩ ≠ some ⟨0x00f2⟩ := by
  have key : fp16_multiply_debug ⟨0x4689⟩ ⟨0x0025⟩ = some ⟨0x00f1⟩ := by
    rw [fp16_multiply_debug_generic _ _ (by decide) (by decide) (by decide) (by decide)]
    have hm : (fp16_t.mk 0x4689).mag * (fp16_t.mk 0x0025).mag = 61901 / 4294967296 := by
      simp only [fp16_t.mag, fp16_t.exp, fp16_t.frac]
      norm_num
    rw [hm, (double_to_fp16_small _ _ (by norm_num) (by norm_num)).1]
    have hfl : ⌊(61901 / 4294967296 : ℚ) * (2 : ℚ) ^ (14 : Int) * 1024⌋₊ = 241 := by
      rw [Nat.floor_eq_iff (by positivity)]
      norm_num
    rw [hfl]
    decide
  refine ⟨key, ?_⟩
  rw [key]
  decide

/-- C2 (evaluation at the claimed input): on the patterns `0x4489` and `0x001d`
the multiplier returns `0x0083`, not the `0x0084` that the claim and the
expectation printed by `main` state. -/
theorem C2_multiply_4489_001d :
    fp16_multiply_debug ⟨0x4489⟩ ⟨0x001d⟩ = some ⟨0x0083⟩ ∧
    fp16_multiply_debug ⟨0x4489⟩ ⟨0x001d⟩ ≠ some ⟨0x0084⟩ := by
  have key : fp16_multiply_debug ⟨0x4489⟩ ⟨0x001d⟩ = some ⟨0x0083⟩ := by
    rw [fp16_multiply_debug_generic _ _ (by decide) (by decide) (by decide) (by decide)]
    have hm : (fp16_t.mk 0x4489).mag * (fp16_t.mk 0x001d).mag = 33669 / 4294967296 := by
      simp only [fp16_t.mag, fp16_t.exp, fp16_t.frac]
      norm_num
    rw [hm, (double_to_fp16_small _ _ (by norm_num) (by norm_num)).1]
    have hfl : ⌊(33669 / 4294967296 : ℚ) * (2 : ℚ) ^ (14 : Int) * 1024⌋₊ = 131 := by
      rw [Nat.floor_eq_iff (by positivity)]
      norm_num
    rw [hfl]
    decide
  refine ⟨key, ?_⟩
  rw [key]
  decide

/-- C3: for patterns `a`, `b` that are each Subnormal or Normal and whose exact
product `P` of decoded values has `|P| < 65536`, the multiplier returns a
16-bit pattern `r` with exponent field below 31 and the sign of `P`, whose
magnitude does not exceed `|P|` and is the largest such among all patterns
with exponent field below 31 (so no representable value lies strictly between
`|decode r|` and `|P|`). -/
theorem C3_truncation (a b : fp16_t) (ha : a.is_subnormal ∨ a.is_normal)
    (hb : b.is_subnormal ∨ b.is_normal) (hP : |a.value * b.value| < 65536) :
    ∃ r, fp16_multiply_debug a b = some r ∧ r.bits < 65536 ∧ r.exp ≠ 31 ∧
      r.sign = (if a.value * b.value < 0 then 1 else 0) ∧
      |r.value| ≤ |a.value * b.value| ∧
      ∀ q : fp16_t, q.exp ≠ 31 → |q.value| ≤ |a.value * b.value| → |q.value| ≤ |r.value| := by
  unfold fp16_t.is_subnormal fp16_t.is_normal at ha hb
  have ea : a.exp ≠ 31 := by omega
  have eb : b.exp ≠ 31 := by omega
  have za : ¬ a.is_zero := by unfold fp16_t.is_zero; omega
  have zb : ¬ b.is_zero := by unfold fp16_t.is_zero; omega
  have h0 : 0 < a.mag * b.mag := mul_pos (mag_pos a za) (mag_pos b zb)
  have hprod : a.value * b.value =
      double.signed (xor (decide (a.sign ≠ 0)) (decide (b.sign ≠ 0))) (a.mag * b.mag) := by
    rw [value_eq a ea, value_eq b eb, signed_mul]
  rw [hprod, abs_signed _ _ h0.le] at hP
  rw [hprod, abs_signed _ _ h0.le, fp16_multiply_debug_generic a b ea eb za zb]
  simp only [signed_neg_iff _ _ h0]
  have hx := product_floor_log2 a b ea eb h0
  generalize xor (decide (a.sign ≠ 0)) (decide (b.sign ≠ 0)) = s
  generalize a.mag * b.mag = m at h0 hP hx
  by_cases hsm : m < (2 : ℚ) ^ (-14 : Int)
  · obtain ⟨hres, hF⟩ := double_to_fp16_small s m h0 hsm
    obtain ⟨he, hle, hmax⟩ := encode_small_floor _ m h0 hsm _ rfl hF
    have h31 : (fp16_t.ofParts (if s = true then 1 else 0) 0
        ⌊m * (2 : ℚ) ^ (14 : Int) * 1024⌋₊).exp ≠ 31 := by rw [he]; decide
    refine ⟨_, hres, fp16_t.ofParts_bits_lt _ _ _, h31, ?_, ?_, ?_⟩
    · rw [fp16_t.ofParts_sign, flag_mod]
    · rw [abs_value _ h31]; exact hle
    · intro q hq hqm
      rw [abs_value _ hq] at hqm ⊢
      rw [abs_value _ h31]
      exact hmax q hq hqm
  · obtain ⟨hres, h1, h2, hF⟩ := double_to_fp16_mid s m (not_lt.mp hsm) hP hx
    obtain ⟨h31, hle, hmax⟩ := encode_mid_floor _ m h0 _ rfl h1 h2 hF
    refine ⟨_, hres, fp16_t.ofParts_bits_lt _ _ _, h31, ?_, ?_, ?_⟩
    · rw [fp16_t.ofParts_sign, flag_mod]
    · rw [abs_value _ h31]; exact hle
    · intro q hq hqm
      rw [abs_value _ hq] at hqm ⊢
      rw [abs_value _ h31]
      exact hmax q hq hqm

/-- Witness for C3 at the patterns of test case 1 (`0x4689` and `0x0025`). -/
theorem C3_truncation_witness :
    ∃ r, fp16_multiply_debug ⟨0x4689⟩ ⟨0x0025⟩ = some r ∧ r.bits < 65536 ∧ r.exp ≠ 31 ∧
      r.sign = (if (fp16_t.mk 0x4689).value * (fp16_t.mk 0x0025).value < 0 then 1 else 0) ∧
      |r.value| ≤ |(fp16_t.mk 0x4689).value * (fp16_t.mk 0x0025).value| ∧
      ∀ q : fp16_t, q.exp ≠ 31 →
        |q.value| ≤ |(fp16_t.mk 0x4689).value * (fp16_t.mk 0x0025).value| →
        |q.value| ≤ |r.value| :=
  C3_truncation ⟨0x4689⟩ ⟨0x0025⟩ (by decide) (by decide) (by
    rw [value_eq _ (by decide), value_eq _ (by decide)]
    simp only [fp16_t.mag, fp16_t.exp, fp16_t.frac, fp16_t.sign, double.signed]
    norm_num [abs_lt])

/-- C4: for every 16-bit pattern `p` that is Normal (exponent field in 1..30) or
Subnormal (exponent field 0, fraction field non-zero), of either sign,
encoding the decoded value gives `p` back bit for bit. -/
theorem C4_round_trip (p : fp16_t) (hp : p.bits < 65536)
    (hc : p.is_normal ∨ p.is_subnormal) :
    double_to_fp16 (fp16_to_double p) = some p := by
  have h31 : p.exp ≠ 31 := by
    unfold fp16_t.is_normal fp16_t.is_subnormal at hc; omega
  have hf : p.frac < 1024 := Nat.mod_lt _ (by norm_num)
  rw [fp16_to_double_finite p h31]
  by_cases he : p.exp = 0
  · have hfr : p.frac ≠ 0 := by
      unfold fp16_t.is_normal fp16_t.is_subnormal at hc; omega
    have hz : ¬ p.is_zero := fun hc => hfr hc.2
    rw [(double_to_fp16_small _ _ (mag_pos p hz) (mag_subnormal_lt p he)).1, sign_flag]
    have hv : p.mag * (2 : ℚ) ^ (14 : Int) * 1024 = (p.frac : ℚ) := by
      simp only [fp16_t.mag, if_pos he]
      norm_num
      ring
    rw [hv, Nat.floor_natCast]
    have := fp16_t.ofParts_fields p hp
    rw [he] at this
    rw [this]
  · have hb := mag_normal_bounds p he
    have hz : ¬ p.is_zero := fun hc => he hc.1
    have h0 := mag_pos p hz
    have hlog : Int.log 2 p.mag = (p.exp : Int) - 15 := log2_eq _ h0 _ hb.1 hb.2
    have hexp : p.exp < 31 := by
      have : p.exp < 32 := Nat.mod_lt _ (by norm_num)
      omega
    have hlo : (2 : ℚ) ^ (-14 : Int) ≤ p.mag := by
      refine le_trans ?_ hb.1
      exact zpow_le_zpow_right₀ (by norm_num) (by omega)
    have hhi : p.mag < 65536 := by
      refine lt_of_lt_of_le hb.2 ?_
      have : (2 : ℚ) ^ ((p.exp : Int) - 15 + 1) ≤ (2 : ℚ) ^ (16 : Int) :=
        zpow_le_zpow_right₀ (by norm_num) (by omega)
      refine le_trans this ?_
      norm_num
    rw [(double_to_fp16_mid _ _ hlo hhi (mag_floor_log2 p h31 h0)).1, sign_flag, hlog]
    have hv : (p.mag / (2 : ℚ) ^ ((p.exp : Int) - 15) - 1) * 1024 = (p.frac : ℚ) := by
      have hpp : (2 : ℚ) ^ ((p.exp : Int) - 15) ≠ 0 := by positivity
      simp only [fp16_t.mag, if_neg he]
      field_simp
      ring
    have ht : ((p.exp : Int) - 15 + 15).toNat = p.exp := by omega
    rw [hv, Nat.floor_natCast, ht, fp16_t.ofParts_fields p hp]

/-- Witness for C4 at the negative normal pattern `0xC689`. -/
theorem C4_round_trip_witness :
    double_to_fp16 (fp16_to_double ⟨0xC689⟩) = some ⟨0xC689⟩ :=
  C4_round_trip ⟨0xC689⟩ (by decide) (by decide)

/-- C5: the multiplier is commutative on all patterns: `fp16_multiply_debug a b`
and `fp16_multiply_debug b a` are the same result (the same pattern, or both
undefined), and the wide product handed to the encoder is the same in both
orders. -/
theorem C5_multiply_comm (a b : fp16_t) :
    fp16_multiply_debug a b = fp16_multiply_debug b a ∧
    fp16_to_double a * fp16_to_double b = fp16_to_double b * fp16_to_double a := by
  refine ⟨?_, double.mul_swap _ _⟩
  simp only [fp16_multiply_debug, Nat.xor_comm b.sign a.sign,
    double.mul_swap (fp16_to_double b) (fp16_to_double a),
    @or_comm (b.exp = 31) (a.exp = 31),
    @or_comm (b.exp = 31 ∧ b.frac ≠ 0) (a.exp = 31 ∧ a.frac ≠ 0),
    @or_comm (b.exp = 31 ∧ b.frac = 0) (a.exp = 31 ∧ a.frac = 0),
    @or_comm (b.exp = 0 ∧ b.frac = 0) (a.exp = 0 ∧ a.frac = 0)]

/-- C6: when `a` is NaN-class (exponent field 31, fraction field non-zero), the
multiplier returns the pattern `0x7C01` for every `b`, in both argument orders. -/
theorem C6_nan_absorption (a b : fp16_t) (ha : a.is_nan) :
    fp16_multiply_debug a b = some ⟨0x7C01⟩ ∧ fp16_multiply_debug b a = some ⟨0x7C01⟩ := by
  have e : (fp16_t.init.set_exp 31).set_frac 1 = ⟨0x7C01⟩ := by decide
  rw [fp16_multiply_debug_nan a b (Or.inl ha), fp16_multiply_debug_nan b a (Or.inr ha), e]
  exact ⟨rfl, rfl⟩

/-- Witness for C6 at the NaN pattern `0x7E00` and the zero pattern. -/
theorem C6_nan_absorption_witness :
    fp16_multiply_debug ⟨0x7E00⟩ ⟨0⟩ = some ⟨0x7C01⟩ ∧
    fp16_multiply_debug ⟨0⟩ ⟨0x7E00⟩ = some ⟨0x7C01⟩ :=
  C6_nan_absorption ⟨0x7E00⟩ ⟨0⟩ (by decide)

/-- C7: when neither operand is NaN-class and at least one is an Infinity, the
multiplier returns the 16-bit pattern with exponent field 31, fraction field 0
and sign `sign(a) XOR sign(b)`, whatever the other operand is (a Zero
included); in particular `0x0000` times `0x7C00` gives `0x7C00`. -/
theorem C7_infinity_branch (a b : fp16_t) (hn : ¬ a.is_nan ∧ ¬ b.is_nan)
    (h : a.is_inf ∨ b.is_inf) :
    (∃ r, fp16_multiply_debug a b = some r ∧ r.bits < 65536 ∧
      r.sign = a.sign ^^^ b.sign ∧ r.exp = 31 ∧ r.frac = 0) ∧
    fp16_multiply_debug ⟨0x0000⟩ ⟨0x7C00⟩ = some ⟨0x7C00⟩ := by
  refine ⟨⟨_, fp16_multiply_debug_inf a b hn h, ?_⟩, ?_⟩
  · have := inf_result_fields (a.sign ^^^ b.sign)
    rw [sign_xor_lt] at this
    exact this
  · rw [fp16_multiply_debug_inf _ _ (by decide) (by decide)]
    decide

/-- Witness for C7 at minus zero times plus infinity. -/
theorem C7_infinity_branch_witness :
    (∃ r, fp16_multiply_debug ⟨0x8000⟩ ⟨0x7C00⟩ = some r ∧ r.bits < 65536 ∧
      r.sign = (fp16_t.mk 0x8000).sign ^^^ (fp16_t.mk 0x7C00).sign ∧ r.exp = 31 ∧ r.frac = 0) ∧
    fp16_multiply_debug ⟨0x0000⟩ ⟨0x7C00⟩ = some ⟨0x7C00⟩ :=
  C7_infinity_branch ⟨0x8000⟩ ⟨0x7C00⟩ (by decide) (by decide)

/-- C8: when neither operand has exponent field 31 and at least one is a Zero,
the multiplier returns the 16-bit pattern with exponent field 0, fraction
field 0 and sign `sign(a) XOR sign(b)`; in particular `0x8000` times `0x3C00`
gives `0x8000`. -/
theorem C8_zero_branch (a b : fp16_t) (ha : a.exp ≠ 31) (hb : b.exp ≠ 31)
    (h : a.is_zero ∨ b.is_zero) :
    (∃ r, fp16_multiply_debug a b = some r ∧ r.bits < 65536 ∧
      r.sign = a.sign ^^^ b.sign ∧ r.exp = 0 ∧ r.frac = 0) ∧
    fp16_multiply_debug ⟨0x8000⟩ ⟨0x3C00⟩ = some ⟨0x8000⟩ := by
  refine ⟨⟨_, fp16_multiply_debug_zero a b ha hb h, ?_⟩, ?_⟩
  · have := zero_result_fields (a.sign ^^^ b.sign)
    rw [sign_xor_lt] at this
    exact this
  · rw [fp16_multiply_debug_zero _ _ (by decide) (by decide) (by decide)]
    decide

/-- Witness for C8 at minus zero times the largest normal pattern. -/
theorem C8_zero_branch_witness :
    (∃ r, fp16_multiply_debug ⟨0x8000⟩ ⟨0x7BFF⟩ = some r ∧ r.bits < 65536 ∧
      r.sign = (fp16_t.mk 0x8000).sign ^^^ (fp16_t.mk 0x7BFF).sign ∧ r.exp = 0 ∧ r.frac = 0) ∧
    fp16_multiply_debug ⟨0x8000⟩ ⟨0x3C00⟩ = some ⟨0x8000⟩ :=
  C8_zero_branch ⟨0x8000⟩ ⟨0x7BFF⟩ (by decide) (by decide) (by decide)

/-- C9: when each operand is a Zero or an Infinity pattern, the multiplier
returns a pattern whose sign bit is `sign(a) XOR sign(b)`. -/
theorem C9_sign_propagation (a b : fp16_t) (ha : a.is_zero ∨ a.is_inf)
    (hb : b.is_zero ∨ b.is_inf) :
    ∃ r, fp16_multiply_debug a b = some r ∧ r.sign = a.sign ^^^ b.sign := by
  by_cases hi : a.is_inf ∨ b.is_inf
  · have hn : ¬ a.is_nan ∧ ¬ b.is_nan := by
      unfold fp16_t.is_nan; unfold fp16_t.is_zero fp16_t.is_inf at ha hb
      constructor
      · rcases ha with h | h <;> simp [h.1, h.2]
      · rcases hb with h | h <;> simp [h.1, h.2]
    refine ⟨_, fp16_multiply_debug_inf a b hn hi, ?_⟩
    rw [(inf_result_fields _).2.1, sign_xor_lt]
  · have hza : a.is_zero := by tauto
    have hzb : b.is_zero := by tauto
    have ea : a.exp ≠ 31 := by rw [hza.1]; decide
    have eb : b.exp ≠ 31 := by rw [hzb.1]; decide
    refine ⟨_, fp16_multiply_debug_zero a b ea eb (Or.inl hza), ?_⟩
    rw [(zero_result_fields _).2.1, sign_xor_lt]

/-- Witness for C9 at minus infinity times plus zero. -/
theorem C9_sign_propagation_witness :
    ∃ r, fp16_multiply_debug ⟨0xFC00⟩ ⟨0x0000⟩ = some r ∧
      r.sign = (fp16_t.mk 0xFC00).sign ^^^ (fp16_t.mk 0x0000).sign :=
  C9_sign_propagation ⟨0xFC00⟩ ⟨0x0000⟩ (by decide) (by decide)

/-- C10 (evaluation at the claimed input): the encoder maps the wide value
`-0.0` to the pattern `0x0000`, the same as for `+0.0`, because `-0.0 == 0.0`
holds and the first test of `double_to_fp16` already returns; hence decoding
`0x8000` and encoding again gives `0x0000`, not `0x8000`. -/
theorem C10_encode_negzero :
    double_to_fp16 double.negzero = some ⟨0x0000⟩ ∧
    double_to_fp16 double.zero = some ⟨0x0000⟩ ∧
    fp16_to_double ⟨0x8000⟩ = double.negzero ∧
    double_to_fp16 (fp16_to_double ⟨0x8000⟩) ≠ some ⟨0x8000⟩ := by
  have h1 : double_to_fp16 double.negzero = some ⟨0x0000⟩ := by
    simp [double_to_fp16, double.eq, double.negzero, double.zero, double.signed, fp16_t.init]
  have h2 : double_to_fp16 double.zero = some ⟨0x0000⟩ := by
    simp [double_to_fp16, double.eq, double.zero, fp16_t.init]
  have h3 : fp16_to_double ⟨0x8000⟩ = double.negzero := by
    simp [fp16_to_double, fp16_t.exp, fp16_t.frac, fp16_t.sign]
  refine ⟨h1, h2, h3, ?_⟩
  rw [h3, h1]
  decide

/-- C11: the encoder maps the wide NaN to exactly `0x7C01` (sign 0, exponent
field 31, fraction field 1); hence for every NaN-class pattern `p`, whatever
its sign and fraction payload, the decoder gives NaN and encoding it again
gives `0x7C01`. -/
theorem C11_canonical_nan (p : fp16_t) (hp : p.is_nan) :
    double_to_fp16 double.nan = some ⟨0x7C01⟩ ∧
    ((fp16_t.mk 0x7C01).sign = 0 ∧ (fp16_t.mk 0x7C01).exp = 31 ∧ (fp16_t.mk 0x7C01).frac = 1) ∧
    fp16_to_double p = double.nan ∧
    double_to_fp16 (fp16_to_double p) = some ⟨0x7C01⟩ := by
  have h1 : double_to_fp16 double.nan = some ⟨0x7C01⟩ := by
    have e : (fp16_t.init.set_exp 31).set_frac 1 = ⟨0x7C01⟩ := by decide
    simp only [double_to_fp16, double.eq, double.isinf, double.isnan, double.zero,
      double.negzero, e]
    rfl
  have h2 : fp16_to_double p = double.nan := by
    unfold fp16_t.is_nan at hp
    simp [fp16_to_double, hp.1, hp.2]
  refine ⟨h1, ⟨by decide, by decide, by decide⟩, h2, ?_⟩
  rw [h2, h1]

/-- Witness for C11 at the negative NaN pattern `0xFFFF`. -/
theorem C11_canonical_nan_witness :
    double_to_fp16 double.nan = some ⟨0x7C01⟩ ∧
    ((fp16_t.mk 0x7C01).sign = 0 ∧ (fp16_t.mk 0x7C01).exp = 31 ∧ (fp16_t.mk 0x7C01).frac = 1) ∧
    fp16_to_double ⟨0xFFFF⟩ = double.nan ∧
    double_to_fp16 (fp16_to_double ⟨0xFFFF⟩) = some ⟨0x7C01⟩ :=
  C11_canonical_nan ⟨0xFFFF⟩ (by decide)

/-- C12: the encoder maps plus infinity to `0x7C00` and minus infinity to
`0xFC00` (exponent field 31, fraction field 0, sign from the input), and both
Infinity patterns decode to the infinity of their sign, so decoding and
encoding again gives each of them back. -/
theorem C12_infinity_encode :
    double_to_fp16 (double.inf false) = some ⟨0x7C00⟩ ∧
    double_to_fp16 (double.inf true) = some ⟨0xFC00⟩ ∧
    fp16_to_double ⟨0x7C00⟩ = double.inf false ∧
    fp16_to_double ⟨0xFC00⟩ = double.inf true ∧
    double_to_fp16 (fp16_to_double ⟨0x7C00⟩) = some ⟨0x7C00⟩ ∧
    double_to_fp16 (fp16_to_double ⟨0xFC00⟩) = some ⟨0xFC00⟩ := by
  have e0 : (fp16_t.init.set_exp 31).set_sign 0 = ⟨0x7C00⟩ := by decide
  have e1 : (fp16_t.init.set_exp 31).set_sign 1 = ⟨0xFC00⟩ := by decide
  have h1 : double_to_fp16 (double.inf false) = some ⟨0x7C00⟩ := by
    simp [double_to_fp16, double.eq, double.isinf, double.lt, double.zero, double.negzero, e0]
  have h2 : double_to_fp16 (double.inf true) = some ⟨0xFC00⟩ := by
    simp [double_to_fp16, double.eq, double.isinf, double.lt, double.zero, double.negzero, e1]
  have h3 : fp16_to_double ⟨0x7C00⟩ = double.inf false := by
    simp [fp16_to_double, fp16_t.exp, fp16_t.frac, fp16_t.sign, double.infinity]
  have h4 : fp16_to_double ⟨0xFC00⟩ = double.inf true := by
    simp [fp16_to_double, fp16_t.exp, fp16_t.frac, fp16_t.sign, double.infinity]
  refine ⟨h1, h2, h3, h4, ?_, ?_⟩
  · rw [h3, h1]
  · rw [h4, h2]

/-- C13 (evaluation at a failing input): on the largest normal pattern `0x7BFF`
(65504) times itself the generic path is taken, the wide product is
`4290774016`, the encoder clamps the exponent to 31 and then converts
`(4290774016 / 65536 - 1) * 1024 = 67042320` to `uint16_t`; this value is
outside `0..65535`, so the conversion is undefined and the multiplier has no
defined result. -/
theorem C13_cast_out_of_range :
    fp16_to_double ⟨0x7BFF⟩ * fp16_to_double ⟨0x7BFF⟩ = double.finite false 4290774016 ∧
    double_to_fp16 (double.finite false 4290774016) =
      (double.toUInt16 (double.finite false 67042320)).map
        (fun f => fp16_t.ofParts 0 31 f) ∧
    (65535 : ℚ) < 67042320 ∧
    double.toUInt16 (double.finite false 67042320) = none ∧
    fp16_multiply_debug ⟨0x7BFF⟩ ⟨0x7BFF⟩ = none := by
  have hm : (fp16_t.mk 0x7BFF).mag = 65504 := by
    simp only [fp16_t.mag, fp16_t.exp, fp16_t.frac]
    norm_num
  have h1 : fp16_to_double ⟨0x7BFF⟩ = double.finite false 65504 := by
    rw [fp16_to_double_finite _ (by decide), hm]
    rfl
  have h2 : double_to_fp16 (double.finite false 4290774016) =
      (double.toUInt16 (double.finite false 67042320)).map
        (fun f => fp16_t.ofParts 0 31 f) := by
    rw [double_to_fp16_big false 4290774016 (by norm_num)]
    have e : ((4290774016 : ℚ) / 65536 - 1) * 1024 = 67042320 := by norm_num
    rw [e]
    rfl
  have h3 : double.toUInt16 (double.finite false 67042320) = none := by
    have hf : ⌊(67042320 : ℚ)⌋₊ = 67042320 := Nat.floor_ofNat 67042320
    simp [double.toUInt16, hf]
  have h4 : fp16_to_double ⟨0x7BFF⟩ * fp16_to_double ⟨0x7BFF⟩ =
      double.finite false 4290774016 := by
    rw [h1, double.finite_mul_finite]
    norm_num
  refine ⟨h4, h2, by norm_num, h3, ?_⟩
  have hg : fp16_multiply_debug ⟨0x7BFF⟩ ⟨0x7BFF⟩ =
      double_to_fp16 (fp16_to_double ⟨0x7BFF⟩ * fp16_to_double ⟨0x7BFF⟩) := by
    rw [fp16_multiply_debug_generic _ _ (by decide) (by decide) (by decide) (by decide),
      h1, double.finite_mul_finite, hm]
    rfl
  rw [hg, h4, h2, h3]
  rfl

/-- C14 (counterexample): at the wide value `65536`, whose biased exponent
`16 + 15` exceeds 30, the encoder returns `0x7C00`: exponent field 31 with
fraction field `0`, which decodes as plus infinity and not as NaN.  So the
encoder does not give a non-zero fraction for every value from `65536` on.
The multiplier reaches this value on `0x5C00` (256) times itself. -/
theorem C14_counterexample :
    double_to_fp16 (double.finite false 65536) = some ⟨0x7C00⟩ ∧
    (fp16_t.mk 0x7C00).exp = 31 ∧ (fp16_t.mk 0x7C00).frac = 0 ∧
    fp16_to_double ⟨0x7C00⟩ = double.inf false ∧
    ¬ (∃ r, double_to_fp16 (double.finite false 65536) = some r ∧ r.exp = 31 ∧
        r.frac ≠ 0 ∧ fp16_to_double r = double.nan) ∧
    fp16_multiply_debug ⟨0x5C00⟩ ⟨0x5C00⟩ = some ⟨0x7C00⟩ := by
  have h1 : double_to_fp16 (double.finite false 65536) = some ⟨0x7C00⟩ := by
    rw [double_to_fp16_big false 65536 (le_refl _)]
    have e : ((65536 : ℚ) / 65536 - 1) * 1024 = 0 := by norm_num
    rw [e, toUInt16_nonneg 0 (by simp)]
    simp only [Nat.floor_zero, Option.map_some']
    decide
  have h2 : fp16_to_double ⟨0x7C00⟩ = double.inf false := by
    simp [fp16_to_double, fp16_t.exp, fp16_t.frac, fp16_t.sign, double.infinity]
  refine ⟨h1, by decide, by decide, h2, ?_, ?_⟩
  · rintro ⟨r, hr, _, hf, _⟩
    rw [h1] at hr
    cases hr
    exact hf (by decide)
  · have hm : (fp16_t.mk 0x5C00).mag * (fp16_t.mk 0x5C00).mag = 65536 := by
      simp only [fp16_t.mag, fp16_t.exp, fp16_t.frac]
      norm_num
    rw [fp16_multiply_debug_generic _ _ (by decide) (by decide) (by decide) (by decide), hm]
    exact h1

/-- C14 (amended): for a finite wide value of magnitude `m` with
`65536 ≤ m < 4259840` (`= 65 * 65536`, up to where the converted fraction
fits `uint16_t`), the biased exponent `floor(log2 m) + 15` exceeds 30 and the
encoder returns the 16-bit pattern with exponent field 31, the sign of the
value and fraction field `floor((m / 65536 - 1) * 1024) mod 1024`; the result
decodes as NaN when this field is non-zero and as the infinity of that sign
when it is zero. -/
theorem C14_overflow_clamp (s : Bool) (m : ℚ) (h1 : 65536 ≤ m) (h2 : m < 4259840) :
    30 < Int.log 2 m + 15 ∧
    ∃ r, double_to_fp16 (double.finite s m) = some r ∧ r.bits < 65536 ∧ r.exp = 31 ∧
      r.sign = (if s then 1 else 0) ∧
      r.frac = ⌊(m / 65536 - 1) * 1024⌋₊ % 1024 ∧
      (r.frac ≠ 0 → fp16_to_double r = double.nan) ∧
      (r.frac = 0 → fp16_to_double r = double.inf s) := by
  have h0 : 0 < m := lt_of_lt_of_le (by norm_num) h1
  have hlog : 16 ≤ Int.log 2 m := (le_log2_iff m h0 16).mpr (by norm_num; exact h1)
  have hge : (1 : ℚ) ≤ m / 65536 := by rw [le_div_iff₀ (by norm_num)]; linarith
  have hlt : m / 65536 < 65 := by rw [div_lt_iff₀ (by norm_num)]; linarith
  have hnn : (0 : ℚ) ≤ (m / 65536 - 1) * 1024 := by
    have : (0 : ℚ) ≤ m / 65536 - 1 := by linarith
    positivity
  have hF : ⌊(m / 65536 - 1) * 1024⌋₊ < 65536 := by
    rw [Nat.floor_lt hnn]; push_cast; linarith
  have hres : double_to_fp16 (double.finite s m) =
      some (fp16_t.ofParts (if s then 1 else 0) 31 ⌊(m / 65536 - 1) * 1024⌋₊) := by
    rw [double_to_fp16_big s m h1, toUInt16_nonneg _ (by omega)]
    rfl
  have hexp := fp16_t.ofParts_exp (if s then 1 else 0) 31 ⌊(m / 65536 - 1) * 1024⌋₊
  have hsign := fp16_t.ofParts_sign (if s then 1 else 0) 31 ⌊(m / 65536 - 1) * 1024⌋₊
  have hfrac := fp16_t.ofParts_frac (if s then 1 else 0) 31 ⌊(m / 65536 - 1) * 1024⌋₊
  have hbits := fp16_t.ofParts_bits_lt (if s then 1 else 0) 31 ⌊(m / 65536 - 1) * 1024⌋₊
  rw [flag_mod] at hsign
  generalize fp16_t.ofParts (if s then 1 else 0) 31 ⌊(m / 65536 - 1) * 1024⌋₊ = r
    at hres hexp hsign hfrac hbits
  have h31 : r.exp = 31 := by rw [hexp]
  refine ⟨by omega, r, hres, hbits, h31, hsign, hfrac, ?_, ?_⟩
  · intro hf
    exact (decode_exp31 r h31).1 hf
  · intro hf
    rw [(decode_exp31 r h31).2 hf, hsign]
    cases s <;> rfl

/-- Witness for C14 (amended) at the wide value `-100000`. -/
theorem C14_overflow_clamp_witness :
    30 < Int.log 2 (100000 : ℚ) + 15 ∧
    ∃ r, double_to_fp16 (double.finite true 100000) = some r ∧ r.bits < 65536 ∧ r.exp = 31 ∧
      r.sign = (if true then 1 else 0) ∧
      r.frac = ⌊((100000 : ℚ) / 65536 - 1) * 1024⌋₊ % 1024 ∧
      (r.frac ≠ 0 → fp16_to_double r = double.nan) ∧
      (r.frac = 0 → fp16_to_double r = double.inf true) :=
  C14_overflow_clamp true 100000 (by norm_num) (by norm_num)

/-- C15: for a finite non-zero wide value `v` of magnitude `m < 2^-14`, the
encoder returns the 16-bit pattern with exponent field 0, sign `(v < 0)` and
fraction field `floor(m * 2^24)` (computed as `floor(m * 2^14 * 1024)`), and
this floor is at most 1023, so it fits the 10-bit field unchanged. -/
theorem C15_subnormal_encode (s : Bool) (m : ℚ) (h0 : 0 < m) (h : m < (2 : ℚ) ^ (-14 : Int)) :
    ∃ r, double_to_fp16 (double.finite s m) = some r ∧ r.bits < 65536 ∧ r.exp = 0 ∧
      r.sign = (if double.lt (double.finite s m) double.zero then 1 else 0) ∧
      r.frac = ⌊m * (2 : ℚ) ^ (24 : Int)⌋₊ ∧
      ⌊m * (2 : ℚ) ^ (24 : Int)⌋₊ = ⌊m * (2 : ℚ) ^ (14 : Int) * 1024⌋₊ ∧
      ⌊m * (2 : ℚ) ^ (24 : Int)⌋₊ ≤ 1023 := by
  obtain ⟨hres, hF⟩ := double_to_fp16_small s m h0 h
  have e : m * (2 : ℚ) ^ (24 : Int) = m * (2 : ℚ) ^ (14 : Int) * 1024 := by
    norm_num; ring
  have hlt : double.lt (double.finite s m) double.zero = s := by
    cases s <;> simp [double.lt, double.zero, double.signed, h0, h0.le]
  rw [e, hlt]
  refine ⟨_, hres, fp16_t.ofParts_bits_lt _ _ _, ?_, ?_, ?_, rfl, hF⟩
  · rw [fp16_t.ofParts_exp]
  · rw [fp16_t.ofParts_sign, flag_mod]
  · rw [fp16_t.ofParts_frac]; omega

/-- Witness for C15 at the wide value `-3 * 2^-24 - 2^-26`. -/
theorem C15_subnormal_encode_witness :
    ∃ r, double_to_fp16 (double.finite true (13 / 67108864)) = some r ∧ r.bits < 65536 ∧
      r.exp = 0 ∧
      r.sign = (if double.lt (double.finite true (13 / 67108864)) double.zero then 1 else 0) ∧
      r.frac = ⌊(13 / 67108864 : ℚ) * (2 : ℚ) ^ (24 : Int)⌋₊ ∧
      ⌊(13 / 67108864 : ℚ) * (2 : ℚ) ^ (24 : Int)⌋₊ =
        ⌊(13 / 67108864 : ℚ) * (2 : ℚ) ^ (14 : Int) * 1024⌋₊ ∧
      ⌊(13 / 67108864 : ℚ) * (2 : ℚ) ^ (24 : Int)⌋₊ ≤ 1023 :=
  C15_subnormal_encode true (13 / 67108864) (by norm_num) (by norm_num)

/-- C16: for every 16-bit pattern `a` that is not NaN-class (Zero, Subnormal,
Normal or Infinity, of either sign), multiplying by `0x3C00` (the pattern of
`1.0`) on either side returns `a`. -/
theorem C16_mul_one (a : fp16_t) (ha : a.bits < 65536) (hn : ¬ a.is_nan) :
    fp16_multiply_debug a ⟨0x3C00⟩ = some a ∧ fp16_multiply_debug ⟨0x3C00⟩ a = some a := by
  obtain ⟨oe, off, os, om⟩ := one_fields
  have hone_nan : ¬ (fp16_t.mk 0x3C00).is_nan := by decide
  have hone_31 : (fp16_t.mk 0x3C00).exp ≠ 31 := by decide
  have hone_z : ¬ (fp16_t.mk 0x3C00).is_zero := by decide
  have hfields := fp16_t.ofParts_fields a ha
  by_cases h31 : a.exp = 31
  · have hf : a.frac = 0 := by
      unfold fp16_t.is_nan at hn
      by_contra hc
      exact hn ⟨h31, hc⟩
    have hi : a.is_inf := ⟨h31, hf⟩
    rw [fp16_multiply_debug_inf a _ ⟨hn, hone_nan⟩ (Or.inl hi),
      fp16_multiply_debug_inf _ a ⟨hone_nan, hn⟩ (Or.inr hi), os, Nat.xor_zero, Nat.zero_xor,
      inf_result_eq]
    rw [h31, hf] at hfields
    rw [hfields]
    exact ⟨rfl, rfl⟩
  · by_cases hz : a.is_zero
    · rw [fp16_multiply_debug_zero a _ h31 hone_31 (Or.inl hz),
        fp16_multiply_debug_zero _ a hone_31 h31 (Or.inr hz), os, Nat.xor_zero, Nat.zero_xor,
        zero_result_eq]
      rw [hz.1, hz.2] at hfields
      rw [hfields]
      exact ⟨rfl, rfl⟩
    · rw [fp16_multiply_debug_generic a _ h31 hone_31 hz hone_z,
        fp16_multiply_debug_generic _ a hone_31 h31 hone_z hz, om, os, mul_one, one_mul]
      have hx : xor (decide (a.sign ≠ 0)) (decide ((0 : Nat) ≠ 0)) = decide (a.sign ≠ 0) := by
        simp
      have hy : xor (decide ((0 : Nat) ≠ 0)) (decide (a.sign ≠ 0)) = decide (a.sign ≠ 0) := by
        simp
      rw [hx, hy, double_to_fp16_mag _ a h31 hz, sign_flag, hfields]
      exact ⟨rfl, rfl⟩

/-- Witness for C16 at the negative subnormal pattern `0x8025`. -/
theorem C16_mul_one_witness :
    fp16_multiply_debug ⟨0x8025⟩ ⟨0x3C00⟩ = some ⟨0x8025⟩ ∧
    fp16_multiply_debug ⟨0x3C00⟩ ⟨0x8025⟩ = some ⟨0x8025⟩ :=
  C16_mul_one ⟨0x8025⟩ (by decide) (by decide)

/-- C17: for patterns `a`, `b` that are each Subnormal or Normal and whose
exact product of decoded values has magnitude below `2^-24`, the multiplier
returns the Zero pattern with sign `sign(a) XOR sign(b)` (`0x0000` or
`0x8000`); every pair of Subnormal patterns has such a product, and
`0x0001` times `0x8001` gives `0x8000`. -/
theorem C17_underflow_zero (a b : fp16_t) (ha : a.is_subnormal ∨ a.is_normal)
    (hb : b.is_subnormal ∨ b.is_normal)
    (hP : |a.value * b.value| < (2 : ℚ) ^ (-24 : Int)) :
    (∃ r, fp16_multiply_debug a b = some r ∧ r.is_zero ∧ r.sign = a.sign ^^^ b.sign ∧
      (r = ⟨0x0000⟩ ∨ r = ⟨0x8000⟩)) ∧
    (∀ c d : fp16_t, c.is_subnormal → d.is_subnormal →
      |c.value * d.value| < (2 : ℚ) ^ (-24 : Int)) ∧
    fp16_multiply_debug ⟨0x0001⟩ ⟨0x8001⟩ = some ⟨0x8000⟩ := by
  have key : ∀ x y : fp16_t, x.exp ≠ 31 → y.exp ≠ 31 → ¬ x.is_zero → ¬ y.is_zero →
      x.mag * y.mag < (2 : ℚ) ^ (-24 : Int) →
      fp16_multiply_debug x y = some (fp16_t.ofParts (x.sign ^^^ y.sign) 0 0) := by
    intro x y ex ey zx zy hm
    have h0 : 0 < x.mag * y.mag := mul_pos (mag_pos x zx) (mag_pos y zy)
    have h14 : x.mag * y.mag < (2 : ℚ) ^ (-14 : Int) := by
      have : (2 : ℚ) ^ (-24 : Int) < (2 : ℚ) ^ (-14 : Int) := by norm_num
      linarith
    have hfl : ⌊x.mag * y.mag * (2 : ℚ) ^ (14 : Int) * 1024⌋₊ = 0 := by
      rw [Nat.floor_eq_zero]
      have h24 : (2 : ℚ) ^ (-24 : Int) * ((2 : ℚ) ^ (14 : Int) * 1024) = 1 := by norm_num
      have hp : (0 : ℚ) < (2 : ℚ) ^ (14 : Int) * 1024 := by positivity
      have := mul_lt_mul_of_pos_right hm hp
      rw [h24] at this
      linarith
    rw [fp16_multiply_debug_generic x y ex ey zx zy, (double_to_fp16_small _ _ h0 h14).1, hfl]
    have hs : (if xor (decide (x.sign ≠ 0)) (decide (y.sign ≠ 0)) = true then 1 else 0)
        = x.sign ^^^ y.sign := by
      rcases sign_cases x with h | h <;> rcases sign_cases y with k | k <;> rw [h, k] <;> decide
    rw [hs]
  unfold fp16_t.is_subnormal fp16_t.is_normal at ha hb
  have ea : a.exp ≠ 31 := by omega
  have eb : b.exp ≠ 31 := by omega
  have za : ¬ a.is_zero := by unfold fp16_t.is_zero; omega
  have zb : ¬ b.is_zero := by unfold fp16_t.is_zero; omega
  have habs : ∀ x y : fp16_t, x.exp ≠ 31 → y.exp ≠ 31 → |x.value * y.value| = x.mag * y.mag := by
    intro x y ex ey
    rw [abs_mul, abs_value x ex, abs_value y ey]
  rw [habs a b ea eb] at hP
  refine ⟨⟨_, key a b ea eb za zb hP, ?_, ?_, ?_⟩, ?_, ?_⟩
  · exact ⟨fp16_t.ofParts_exp _ _ _, fp16_t.ofParts_frac _ _ _⟩
  · rw [fp16_t.ofParts_sign, sign_xor_lt]
  · rcases sign_cases a with h | h <;> rcases sign_cases b with k | k <;> rw [h, k] <;> decide
  · intro c d hc hd
    unfold fp16_t.is_subnormal at hc hd
    have ec : c.exp ≠ 31 := by omega
    have ed : d.exp ≠ 31 := by omega
    rw [habs c d ec ed]
    have h1 := mag_subnormal_lt c hc.1
    have h2 := mag_subnormal_lt d hd.1
    have n1 := fp16_t.mag_nonneg c
    have n2 := fp16_t.mag_nonneg d
    have h3 : c.mag * d.mag ≤ (2 : ℚ) ^ (-14 : Int) * (2 : ℚ) ^ (-14 : Int) :=
      mul_le_mul h1.le h2.le n2 (by positivity)
    have h4 : (2 : ℚ) ^ (-14 : Int) * (2 : ℚ) ^ (-14 : Int) < (2 : ℚ) ^ (-24 : Int) := by
      norm_num
    linarith
  · have hm : (fp16_t.mk 0x0001).mag * (fp16_t.mk 0x8001).mag < (2 : ℚ) ^ (-24 : Int) := by
      simp only [fp16_t.mag, fp16_t.exp, fp16_t.frac]
      norm_num
    rw [key _ _ (by decide) (by decide) (by decide) (by decide) hm]
    decide

/-- Witness for C17 at `0x0400` (the smallest normal, `2^-14`) times `0x83FF`
(the largest negative subnormal). -/
theorem C17_underflow_zero_witness :
    (∃ r, fp16_multiply_debug ⟨0x0400⟩ ⟨0x83FF⟩ = some r ∧ r.is_zero ∧
      r.sign = (fp16_t.mk 0x0400).sign ^^^ (fp16_t.mk 0x83FF).sign ∧
      (r = ⟨0x0000⟩ ∨ r = ⟨0x8000⟩)) ∧
    (∀ c d : fp16_t, c.is_subnormal → d.is_subnormal →
      |c.value * d.value| < (2 : ℚ) ^ (-24 : Int)) ∧
    fp16_multiply_debug ⟨0x0001⟩ ⟨0x8001⟩ = some ⟨0x8000⟩ :=
  C17_underflow_zero ⟨0x0400⟩ ⟨0x83FF⟩ (by decide) (by decide) (by
    rw [value_eq _ (by decide), value_eq _ (by decide)]
    simp only [fp16_t.mag, fp16_t.exp, fp16_t.frac, fp16_t.sign, double.signed]
    norm_num [abs_lt])

/-- C18 (evaluation at a failing input): the wide value `65536 - 2^-37`, the
binary64 value just below `65536`, lies in `[2^-14, 65536)` and the exact
floor of its logarithm is 15, but `log2` rounds to `16.0`, so
`(int)floor(log2(val)) + 15` is 31 and the upper clamp applies; the fraction
operand `(val / 65536 - 1) * 1024 = -2^-43` converts to 0 and the encoder
returns `0x7C00`, with exponent field 31 and not in `1..30`. -/
theorem C18_log2_rounds_up :
    ((2 : ℚ) ^ (-14 : Int) ≤ 65536 - 1 / 137438953472 ∧
      (65536 - 1 / 137438953472 : ℚ) < 65536) ∧
    Int.log 2 (65536 - 1 / 137438953472 : ℚ) = 15 ∧
    double.floor_log2 (double.fabs (double.finite false (65536 - 1 / 137438953472))) =
      some 16 ∧
    double_to_fp16 (double.finite false (65536 - 1 / 137438953472)) = some ⟨0x7C00⟩ ∧
    (fp16_t.mk 0x7C00).exp = 31 := by
  have h0 : (0 : ℚ) < 65536 - 1 / 137438953472 := by norm_num
  have h14 : ¬ (65536 - 1 / 137438953472 : ℚ) < (2 : ℚ) ^ (-14 : Int) := by norm_num
  have hL : Int.log 2 (65536 - 1 / 137438953472 : ℚ) = 15 :=
    log2_eq _ h0 15 (by norm_num) (by norm_num)
  have hlog : Nat.log 2 16 = 4 := by
    rw [show (16 : Nat) = 2 ^ 4 by norm_num]
    exact Nat.log_pow (by norm_num) 4
  have hn : double.log2_round_exp 16 = 50 := by
    simp [double.log2_round_exp, hlog]
  have hfl : double.floor_log2_pos (65536 - 1 / 137438953472) = 16 :=
    floor_log2_pos_bump _ (1 / 2 ^ 53) 16 50 (by rw [hL]; norm_num) hn (by norm_num)
      (by norm_num) (by norm_num)
  have hlt : (65536 - 1 / 137438953472 : ℚ) / 65536 < 1 := by norm_num
  refine ⟨⟨by norm_num, by norm_num⟩, hL, ?_, ?_, by decide⟩
  · simp only [double.floor_log2, double.fabs, hfl, h0, and_self, if_true]
  · rw [double_to_fp16_nonzero false _ h0, if_neg h14, hfl]
    have c1 : ¬ ((16 : Int) + 15 < 0) := by omega
    have c2 : (16 : Int) + 15 > 30 := by omega
    simp only [if_neg c1, if_pos c2, double.pow2, double.one, double.ofNat]
    have e16 : (2 : ℚ) ^ ((31 : Int) - 15) = 65536 := by norm_num
    rw [e16, double.finite_div_finite _ _ _ _ (by norm_num)]
    simp only [Bool.xor_false]
    rw [double.finite_sub_finite_neg _ _ hlt]
    simp only [double.finite_mul_finite, Bool.xor_false, Nat.cast_ofNat]
    rw [toUInt16_neg_small _ (by norm_num)]
    decide
